import Mathlib

/-!
Shallow embedding of the polynomial arithmetic and Rabin irreducibility
test of src/lab2.cpp (class Poly), together with proofs of the spec claims.

Modelling conventions:
* C++ int values are modelled as unbounded Int (the spec's design notes
  treat overflow of PowInt as out of scope); the modulus field p is a Nat.
* C++ operator % on int is truncated remainder, modelled by Int.tmod;
  C++ operator / is truncated division, modelled by Int.tdiv.
* while loops are modelled by structurally recursive functions with an
  explicit fuel argument, large enough that the loop always reaches its
  exit condition (proved where a claim depends on it).
* throwing functions return Except PolyError.
-/

namespace Lab2

/-- The two error kinds of the C++ code (both raised via runtime_error). -/
inductive PolyError where
  | DivisionByZeroPolynomial : PolyError
  | NotInvertible : PolyError
deriving DecidableEq, Repr

deriving instance DecidableEq for Except

/-- The reduction (x % p + p) % p applied by Normalize to each coefficient
(C++ % on int is truncated remainder). -/
def normCoeff (p : ℕ) (x : Int) : Int := (x.tmod p + p).tmod p

/-- The pop_back loop of Normalize, acting on the reversed coefficient list:
while (a.size() > 1 && a.back() % p == 0) a.pop_back(). -/
def stripRev (p : ℕ) : List Int → List Int
  | [] => []
  | [x] => [x]
  | x :: y :: t => if x.tmod p = 0 then stripRev p (y :: t) else x :: y :: t

/-- Poly::Normalize: drop trailing (highest-index) coefficients divisible by
p while more than one remains, then reduce every coefficient by
(x % p + p) % p. -/
def Normalize (p : ℕ) (a : List Int) : List Int :=
  ((stripRev p a.reverse).reverse).map (normCoeff p)

/-- The Poly class: modulus p and coefficient vector a (a[k] is the
coefficient of x^k). -/
structure Poly where
  p : ℕ
  a : List Int
deriving DecidableEq, Repr

/-- Constructor Poly(const vector<int>& v, int mod): store and normalize. -/
def Poly.ofList (v : List Int) (p : ℕ) : Poly := ⟨p, Normalize p v⟩

/-- Constructor Poly(int mod): the canonical zero polynomial. -/
def Poly.zero (p : ℕ) : Poly := ⟨p, [0]⟩

/-- Poly::Degree: (int)a.size() - 1 (so the zero polynomial has degree 0
and an empty coefficient vector would have degree -1). -/
def Poly.Degree (f : Poly) : Int := (f.a.length : Int) - 1

/-- The zero test used throughout the C++ code:
(a.size() == 1 && a[0] == 0). -/
def Poly.isZeroRep (f : Poly) : Prop := f.a.length = 1 ∧ f.a.headD 0 = 0

instance (f : Poly) : Decidable f.isZeroRep := by
  unfold Poly.isZeroRep; infer_instance

/-- r.a.resize(n, 0) for n >= r.length (and a no-op otherwise, matching the
guarded resize in operator+ and operator-). -/
def padTo (r : List Int) (n : ℕ) : List Int := r ++ List.replicate (n - r.length) 0

/-- The coefficient loop of operator+: r[i] = (r[i] + t[i]) % p over t's
indices, the remaining entries of r untouched (r is at least as long as t
at every call site). -/
def addVecs (p : ℕ) : List Int → List Int → List Int
  | r, [] => r
  | [], _ :: _ => []
  | rx :: r, tx :: t => (rx + tx).tmod p :: addVecs p r t

/-- Poly::operator+ : pad, add coefficientwise mod p, normalize. -/
def Poly.add (f t : Poly) : Poly :=
  ⟨f.p, Normalize f.p (addVecs f.p (padTo f.a t.a.length) t.a)⟩

/-- The coefficient loop of operator-: r[i] = (r[i] - t[i] + p) % p. -/
def subVecs (p : ℕ) : List Int → List Int → List Int
  | r, [] => r
  | [], _ :: _ => []
  | rx :: r, tx :: t => (rx - tx + p).tmod p :: subVecs p r t

/-- Poly::operator- : pad, subtract coefficientwise mod p, normalize. -/
def Poly.sub (f t : Poly) : Poly :=
  ⟨f.p, Normalize f.p (subVecs f.p (padTo f.a t.a.length) t.a)⟩

/-- Inner loop of operator*: for j over t, r[k+j] = (r[k+j] + ai*t[j]) % p. -/
def mulInner (p : ℕ) (ai : Int) : List Int → ℕ → List Int → List Int
  | [], _, r => r
  | tj :: t, k, r => mulInner p ai t (k + 1) (r.set k ((r.getD k 0 + ai * tj).tmod p))

/-- Outer loop of operator*: for i over a, run the inner loop at offset i. -/
def mulOuter (p : ℕ) : List Int → ℕ → List Int → List Int → List Int
  | [], _, _, r => r
  | ai :: a, i, t, r => mulOuter p a (i + 1) t (mulInner p ai t i r)

/-- Poly::operator* : convolution into a zero buffer of length
a.size() + t.size() - 1, then normalize. -/
def Poly.mul (f t : Poly) : Poly :=
  ⟨f.p, Normalize f.p
    (mulOuter f.p f.a 0 t.a (List.replicate (f.a.length + t.a.length - 1) 0))⟩

/-- The extended-Euclid loop of Poly::InvMod, with explicit fuel:
while (r1) { q = r0/r1; r0 -= q*r1; swap(r0,r1); s0 -= q*s1; swap(s0,s1); }
returning the final (r0, s0). C++ / and % truncate toward zero. -/
def egcdLoop : ℕ → Int → Int → Int → Int → Int × Int
  | 0, r0, _, s0, _ => (r0, s0)
  | fuel + 1, r0, r1, s0, s1 =>
    if r1 = 0 then (r0, s0)
    else egcdLoop fuel r1 (r0 - r0.tdiv r1 * r1) s1 (s0 - r0.tdiv r1 * s1)

/-- Poly::InvMod: extended Euclid; fails with NotInvertible unless the
final r0 is exactly 1, else returns (s0 % p + p) % p. The fuel
p.natAbs + 2 is enough for the loop to reach r1 = 0. -/
def InvMod (a p : Int) : Except PolyError Int :=
  let rs := egcdLoop (p.natAbs + 2) a p 1 0
  if rs.1 ≠ 1 then .error .NotInvertible
  else .ok ((rs.2.tmod p + p).tmod p)

/-- One iteration body plus guard of the division loop of Poly::DivMod:
while (R.Degree() >= d.Degree() && !(R zero rep)) { subtract the scaled,
shifted divisor and record the quotient coefficient }. -/
def divmodLoop (p : ℕ) (d : List Int) (invLead : Int) :
    ℕ → List Int → List Int → List Int × List Int
  | 0, Q, R => (Q, R)
  | fuel + 1, Q, R =>
    if d.length ≤ R.length ∧ ¬(R.length = 1 ∧ R.headD 0 = 0) then
      let coef := (R.getLastD 0 * invLead).tmod p
      let shift := R.length - d.length
      let sub := List.replicate shift 0 ++ d.map (fun di => (coef * di).tmod p)
      divmodLoop p d invLead fuel (Q.set shift coef) (Poly.sub ⟨p, R⟩ (Poly.ofList sub p)).a
    else (Q, R)

/-- Poly::DivMod: division with remainder. Checks for the zero-polynomial
divisor up front, computes the inverse of the divisor's leading
coefficient (which can fail), then runs the subtraction loop and
normalizes both outputs. -/
def Poly.DivMod (A d : Poly) : Except PolyError (Poly × Poly) :=
  if d.Degree = 0 ∧ d.a.headD 0 = 0 then .error .DivisionByZeroPolynomial
  else do
    let invLead ← InvMod (d.a.getLastD 0) A.p
    let Q0 : List Int := List.replicate (max 0 (A.Degree - d.Degree + 1)).toNat 0
    let QR := divmodLoop A.p d.a invLead (A.a.length + 1) Q0 A.a
    .ok (⟨A.p, Normalize A.p QR.1⟩, ⟨A.p, Normalize A.p QR.2⟩)

/-- The while loop of Poly::GCD: replace (A, B) by (B, A mod B) until B is
the zero representation, then return A normalized. -/
def gcdLoop : ℕ → Poly → Poly → Except PolyError Poly
  | 0, A, _ => .ok ⟨A.p, Normalize A.p A.a⟩
  | fuel + 1, A, B =>
    if B.a.length = 1 ∧ B.a.headD 0 = 0 then .ok ⟨A.p, Normalize A.p A.a⟩
    else do
      let QR ← Poly.DivMod A B
      gcdLoop fuel B QR.2

/-- Poly::GCD. The fuel B.a.length + 2 covers the strictly decreasing
degrees of the successive remainders. -/
def Poly.GCD (A B : Poly) : Except PolyError Poly := gcdLoop (B.a.length + 2) A B

/-- The square-and-multiply loop of Poly::PowX:
while (k > 0) { if (k & 1) res = (res*r) mod f; r = (r*r) mod f; k >>= 1; }. -/
def powXLoop (f : Poly) : ℕ → ℕ → Poly → Poly → Except PolyError Poly
  | 0, _, _, res => .ok res
  | fuel + 1, k, r, res =>
    if k = 0 then .ok res
    else do
      let res' ← if k % 2 = 1 then do
          let QR ← Poly.DivMod (Poly.mul res r) f
          pure QR.2
        else pure res
      let QR2 ← Poly.DivMod (Poly.mul r r) f
      powXLoop f fuel (k / 2) QR2.2 res'

/-- Poly::PowX: x^k mod f by square and multiply, starting from r = x and
res = 1. Fuel k + 1 suffices since k is halved every iteration. -/
def Poly.PowX (k : ℕ) (f : Poly) : Except PolyError Poly :=
  powXLoop f (k + 1) k (Poly.ofList [0, 1] f.p) (Poly.ofList [1] f.p)

/-- Poly::PowInt: plain integer exponentiation by repeated multiplication
(r *= a, b times). Both arguments are non-negative at every call site. -/
def PowInt (a : ℕ) : ℕ → ℕ
  | 0 => 1
  | b + 1 => PowInt a b * a

/-- The inner while loop of Poly::PrimeDivisors: while (n % i == 0) n /= i. -/
def stripFactor : ℕ → ℕ → ℕ → ℕ
  | 0, n, _ => n
  | fuel + 1, n, i => if n % i = 0 then stripFactor fuel (n / i) i else n

/-- The trial-division loop of Poly::PrimeDivisors, returning the residual
n together with the accumulated divisor list. -/
def primeDivLoop : ℕ → ℕ → ℕ → List ℕ → ℕ × List ℕ
  | 0, n, _, acc => (n, acc)
  | fuel + 1, n, i, acc =>
    if i * i ≤ n then
      if n % i = 0 then primeDivLoop fuel (stripFactor n (n / i) i) (i + 1) (acc ++ [i])
      else primeDivLoop fuel n (i + 1) acc
    else (n, acc)

/-- Poly::PrimeDivisors: distinct prime divisors of n by trial division. -/
def PrimeDivisors (n : ℕ) : List ℕ :=
  let r := primeDivLoop (n + 2) n 2 []
  if 1 < r.1 then r.2 ++ [r.1] else r.2

/-- The loop over prime divisors q of n in Poly::IsIrreducible:
h = PowX(p^(n/q), f) - x; reject when GCD(f, h) has positive degree. -/
def irredDivLoop (f : Poly) (p n : ℕ) : List ℕ → Except PolyError Bool
  | [] => .ok true
  | q :: qs => do
    let xp ← Poly.PowX (PowInt p (n / q)) f
    let h := Poly.sub xp (Poly.ofList [0, 1] p)
    let g ← Poly.GCD f h
    if 0 < g.Degree then .ok false else irredDivLoop f p n qs

/-- Poly::IsIrreducible: Rabin's criterion as implemented — reject degree
<= 0; require (x^(p^n) mod f) - x to be the zero representation; then for
every stored prime divisor q of n require GCD(f, PowX(p^(n/q), f) - x) to
have degree 0. -/
def Poly.IsIrreducible (f : Poly) : Except PolyError Bool :=
  if f.Degree ≤ 0 then .ok false
  else do
    let n := f.Degree.toNat
    let xp ← Poly.PowX (PowInt f.p n) f
    let test := Poly.sub xp (Poly.ofList [0, 1] f.p)
    if ¬(test.a.length = 1 ∧ test.a.headD 0 = 0) then .ok false
    else irredDivLoop f f.p n (PrimeDivisors n)

-- sanity checks on concrete values (spec section 8 scenarios)
example : Poly.IsIrreducible (Poly.ofList [1, 1, 1] 2) = .ok true := by decide
example : Poly.IsIrreducible (Poly.ofList [1, 0, 1] 2) = .ok false := by decide
example : Poly.IsIrreducible (Poly.ofList [0, 1] 2) = .ok false := by decide
example :
    Poly.DivMod (Poly.ofList [1, 0, 0, 1] 5) (Poly.ofList [1, 1] 5) =
      .ok (Poly.ofList [1, 4, 1] 5, Poly.zero 5) := by decide
example : Poly.DivMod (Poly.ofList [1] 2) (Poly.ofList [0, 1] 2) =
    .ok (⟨2, []⟩, ⟨2, [1]⟩) := by decide
example : InvMod (-1) 2 = .error .NotInvertible := by decide
example : Poly.IsIrreducible (Poly.ofList [2, 3, 1] 5) = .ok false := by decide
example : Poly.IsIrreducible (Poly.ofList [1, 0, 1] 3) = .ok true := by decide

/-! ### Basic facts about the coefficient reduction -/

theorem neg_lt_tmod (x : ℤ) {p : ℕ} (hp : 0 < p) : -(p : ℤ) < x.tmod p := by
  cases x with
  | ofNat m =>
      have h1 : 0 ≤ Int.tmod (Int.ofNat m) p :=
        Int.tmod_nonneg _ (by simp [Int.ofNat_eq_natCast])
      omega
  | negSucc m =>
      show -(p : ℤ) < Int.tmod (Int.negSucc m) (Int.ofNat p)
      have hmp : ((Nat.succ m % p : ℕ) : ℤ) < (p : ℤ) := by exact_mod_cast Nat.mod_lt _ hp
      simp only [Int.tmod, Int.ofNat_eq_natCast]
      omega

theorem tmod_eq_self_of_bounds {p : ℕ} {v : ℤ} (h1 : -(p : ℤ) < v) (h2 : v < p) :
    v.tmod p = v := by
  cases v with
  | ofNat m =>
      exact Int.tmod_eq_of_lt (by simp [Int.ofNat_eq_natCast]) h2
  | negSucc m =>
      show Int.tmod (Int.negSucc m) (Int.ofNat p) = Int.negSucc m
      have hm : Nat.succ m < p := by
        rw [Int.negSucc_eq] at h1
        omega
      simp only [Int.tmod]
      rw [Nat.mod_eq_of_lt hm]
      have e1 : Int.negSucc m = -((m : ℤ) + 1) := Int.negSucc_eq m
      have e2 : Int.ofNat (Nat.succ m) = ((m : ℤ) + 1) := by
        simp [Int.ofNat_eq_natCast]
      rw [e1, e2]

theorem tmod_tmod {p : ℕ} (hp : 0 < p) (x : ℤ) : (x.tmod p).tmod p = x.tmod p :=
  tmod_eq_self_of_bounds (neg_lt_tmod x hp)
    (Int.tmod_lt_of_pos x (by exact_mod_cast hp))

theorem normCoeff_eq_emod {p : ℕ} (hp : 0 < p) (x : ℤ) : normCoeff p x = x % (p : ℤ) := by
  have h1 : -(p : ℤ) < x.tmod p := neg_lt_tmod x hp
  unfold normCoeff
  rw [Int.tmod_eq_emod (by omega) (by omega), Int.tmod_def x p]
  have h2 : x - (p : ℤ) * x.tdiv p + p = x + (p : ℤ) * (1 - x.tdiv p) := by ring
  rw [h2, Int.add_mul_emod_self_left]

theorem normCoeff_nonneg {p : ℕ} (hp : 0 < p) (x : ℤ) : 0 ≤ normCoeff p x := by
  rw [normCoeff_eq_emod hp]
  exact Int.emod_nonneg x (by exact_mod_cast hp.ne')

theorem normCoeff_lt {p : ℕ} (hp : 0 < p) (x : ℤ) : normCoeff p x < p := by
  rw [normCoeff_eq_emod hp]
  exact Int.emod_lt_of_pos x (by exact_mod_cast hp)

theorem normCoeff_of_range {p : ℕ} {y : ℤ} (h0 : 0 ≤ y) (h1 : y < p) : normCoeff p y = y := by
  have hp : 0 < p := by exact_mod_cast lt_of_le_of_lt h0 h1
  rw [normCoeff_eq_emod hp]
  exact Int.emod_eq_of_lt h0 h1

theorem normCoeff_zero_iff {p : ℕ} (hp : 0 < p) (x : ℤ) :
    normCoeff p x = 0 ↔ x.tmod p = 0 := by
  rw [normCoeff_eq_emod hp, ← Int.dvd_iff_tmod_eq_zero]
  constructor
  · exact fun h => Int.dvd_of_emod_eq_zero h
  · exact fun h => Int.emod_eq_zero_of_dvd h

/-! ### The semantic map into Polynomial (ZMod p) -/

theorem intCast_tmod (p : ℕ) (x : ℤ) : ((x.tmod (p : ℤ) : ℤ) : ZMod p) = (x : ZMod p) := by
  rw [Int.tmod_def]
  push_cast
  simp [ZMod.natCast_self]

theorem normCoeff_cast (p : ℕ) (x : ℤ) : ((normCoeff p x : ℤ) : ZMod p) = (x : ZMod p) := by
  unfold normCoeff
  rw [intCast_tmod]
  push_cast
  rw [intCast_tmod]
  simp [ZMod.natCast_self]

/-- Interpretation of a coefficient list as a polynomial over ZMod p. -/
noncomputable def toP (p : ℕ) : List Int → Polynomial (ZMod p)
  | [] => 0
  | c :: t => Polynomial.C (c : ZMod p) + Polynomial.X * toP p t

@[simp] theorem toP_nil (p : ℕ) : toP p [] = 0 := rfl

theorem toP_cons (p : ℕ) (c : Int) (t : List Int) :
    toP p (c :: t) = Polynomial.C (c : ZMod p) + Polynomial.X * toP p t := rfl

theorem toP_coeff (p : ℕ) (l : List Int) (i : ℕ) :
    (toP p l).coeff i = ((l.getD i 0 : ℤ) : ZMod p) := by
  induction l generalizing i with
  | nil => simp
  | cons c t ih =>
      cases i with
      | zero => simp [toP_cons]
      | succ n =>
          simp only [toP_cons, Polynomial.coeff_add, Polynomial.coeff_C,
            Polynomial.coeff_X_mul, ih]
          simp

theorem toP_congr {p : ℕ} {l1 l2 : List Int}
    (h : ∀ i : ℕ, ((l1.getD i 0 : ℤ) : ZMod p) = ((l2.getD i 0 : ℤ) : ZMod p)) :
    toP p l1 = toP p l2 :=
  Polynomial.ext fun i => by rw [toP_coeff, toP_coeff]; exact h i

theorem toP_degree_lt (p : ℕ) (l : List Int) : (toP p l).degree < (l.length : ℕ) := by
  rw [Polynomial.degree_lt_iff_coeff_zero]
  intro m hm
  rw [toP_coeff, List.getD_eq_default]
  · simp
  · exact_mod_cast hm

theorem toP_append (p : ℕ) (l1 l2 : List Int) :
    toP p (l1 ++ l2) = toP p l1 + Polynomial.X ^ l1.length * toP p l2 := by
  induction l1 with
  | nil => simp
  | cons c t ih =>
      simp only [List.cons_append, toP_cons, ih, List.length_cons]
      ring

@[simp] theorem toP_replicate_zero (p n : ℕ) : toP p (List.replicate n 0) = 0 := by
  induction n with
  | zero => rfl
  | succ m ih => simp [List.replicate_succ, toP_cons, ih]

theorem toP_padTo (p : ℕ) (l : List Int) (n : ℕ) : toP p (padTo l n) = toP p l := by
  unfold padTo
  rw [toP_append]
  simp

@[simp] theorem padTo_length (l : List Int) (n : ℕ) : (padTo l n).length = max l.length n := by
  unfold padTo
  simp
  omega

theorem toP_stripRev (p : ℕ) (rl : List Int) :
    toP p (stripRev p rl).reverse = toP p rl.reverse := by
  induction rl with
  | nil => rfl
  | cons x t ih =>
      cases t with
      | nil => rfl
      | cons y t2 =>
          show toP p (if x.tmod p = 0 then stripRev p (y :: t2) else x :: y :: t2).reverse = _
          by_cases hx : x.tmod (p : ℤ) = 0
          · have hc : ((x : ℤ) : ZMod p) = 0 := by
              rw [ZMod.intCast_zmod_eq_zero_iff_dvd]
              exact Int.dvd_of_tmod_eq_zero hx
            rw [if_pos hx, List.reverse_cons, toP_append, ih]
            simp [toP_cons, hc]
          · rw [if_neg hx]

theorem toP_map_normCoeff (p : ℕ) (l : List Int) :
    toP p (l.map (normCoeff p)) = toP p l := by
  induction l with
  | nil => rfl
  | cons c t ih => simp [toP_cons, ih, normCoeff_cast]

theorem toP_Normalize (p : ℕ) (l : List Int) : toP p (Normalize p l) = toP p l := by
  unfold Normalize
  rw [toP_map_normCoeff, toP_stripRev, List.reverse_reverse]

theorem toP_addVecs (p : ℕ) :
    ∀ t r : List Int, t.length ≤ r.length →
      toP p (addVecs p r t) = toP p r + toP p t := by
  intro t
  induction t with
  | nil => intro r _; cases r <;> simp [addVecs]
  | cons tx t2 ih =>
      intro r hlen
      cases r with
      | nil => simp at hlen
      | cons rx r2 =>
          show toP p ((rx + tx).tmod p :: addVecs p r2 t2) = _
          rw [toP_cons, ih r2 (by simpa using hlen), intCast_tmod]
          push_cast
          simp only [toP_cons, map_add]
          ring

theorem toP_add (f t : Poly) :
    toP f.p (f.add t).a = toP f.p f.a + toP f.p t.a := by
  show toP f.p (Normalize f.p (addVecs f.p (padTo f.a t.a.length) t.a)) = _
  rw [toP_Normalize, toP_addVecs f.p t.a (padTo f.a t.a.length) (by simp)]
  rw [toP_padTo]

theorem toP_subVecs (p : ℕ) :
    ∀ t r : List Int, t.length ≤ r.length →
      toP p (subVecs p r t) = toP p r - toP p t := by
  intro t
  induction t with
  | nil => intro r _; cases r <;> simp [subVecs]
  | cons tx t2 ih =>
      intro r hlen
      cases r with
      | nil => simp at hlen
      | cons rx r2 =>
          show toP p ((rx - tx + p).tmod p :: subVecs p r2 t2) = _
          rw [toP_cons, ih r2 (by simpa using hlen), intCast_tmod]
          push_cast
          simp only [toP_cons, ZMod.natCast_self, add_zero, map_add, map_sub]
          ring

theorem toP_sub (f t : Poly) :
    toP f.p (f.sub t).a = toP f.p f.a - toP f.p t.a := by
  show toP f.p (Normalize f.p (subVecs f.p (padTo f.a t.a.length) t.a)) = _
  rw [toP_Normalize, toP_subVecs f.p t.a (padTo f.a t.a.length) (by simp)]
  rw [toP_padTo]

theorem getD_set (r : List Int) (k : ℕ) (v : Int) (i : ℕ) (hk : k < r.length) :
    (r.set k v).getD i 0 = if i = k then v else r.getD i 0 := by
  rcases eq_or_ne i k with h | h
  · subst h
    simp [List.getElem?_set_self hk]
  · simp [List.getElem?_set_ne (Ne.symm h), h]

theorem toP_set (p : ℕ) (r : List Int) (k : ℕ) (v : Int) (hk : k < r.length) :
    toP p (r.set k v) =
      toP p r + Polynomial.C ((v : ZMod p) - ((r.getD k 0 : ℤ) : ZMod p)) * Polynomial.X ^ k := by
  apply Polynomial.ext
  intro i
  rw [toP_coeff, getD_set r k v i hk]
  rw [Polynomial.coeff_add, toP_coeff, Polynomial.coeff_C_mul, Polynomial.coeff_X_pow]
  rcases eq_or_ne i k with h | h
  · subst h; simp
  · simp [h]

@[simp] theorem mulInner_length (p : ℕ) (ai : Int) :
    ∀ (t : List Int) (k : ℕ) (r : List Int), (mulInner p ai t k r).length = r.length := by
  intro t
  induction t with
  | nil => intro k r; rfl
  | cons tj t2 ih => intro k r; show (mulInner p ai t2 (k + 1) _).length = _; rw [ih]; simp

theorem toP_mulInner (p : ℕ) (ai : Int) :
    ∀ (t : List Int) (k : ℕ) (r : List Int), k + t.length ≤ r.length →
      toP p (mulInner p ai t k r) =
        toP p r + Polynomial.C (ai : ZMod p) * toP p t * Polynomial.X ^ k := by
  intro t
  induction t with
  | nil => intro k r _; simp [mulInner]
  | cons tj t2 ih =>
      intro k r hlen
      have hk : k < r.length := by simp at hlen; omega
      show toP p (mulInner p ai t2 (k + 1) (r.set k ((r.getD k 0 + ai * tj).tmod p))) = _
      rw [ih (k + 1) _ (by simp at hlen ⊢; omega), toP_set p r k _ hk]
      rw [intCast_tmod]
      push_cast
      simp only [toP_cons, map_add, map_mul, add_sub_cancel_left]
      ring

theorem mulOuter_length (p : ℕ) :
    ∀ (a : List Int) (i : ℕ) (t r : List Int), (mulOuter p a i t r).length = r.length := by
  intro a
  induction a with
  | nil => intro i t r; rfl
  | cons ai a2 ih =>
      intro i t r
      show (mulOuter p a2 (i + 1) t (mulInner p ai t i r)).length = _
      rw [ih, mulInner_length]

theorem toP_mulOuter (p : ℕ) :
    ∀ (a : List Int) (i : ℕ) (t r : List Int), i + a.length + t.length ≤ r.length + 1 →
      toP p (mulOuter p a i t r) =
        toP p r + toP p a * toP p t * Polynomial.X ^ i := by
  intro a
  induction a with
  | nil => intro i t r _; simp [mulOuter]
  | cons ai a2 ih =>
      intro i t r hlen
      show toP p (mulOuter p a2 (i + 1) t (mulInner p ai t i r)) = _
      rw [ih (i + 1) t _ (by rw [mulInner_length]; simp at hlen ⊢; omega)]
      rw [toP_mulInner p ai t i r (by simp at hlen ⊢; omega)]
      simp only [toP_cons, map_add, map_mul]
      ring

theorem toP_mul (f t : Poly) :
    toP f.p (f.mul t).a = toP f.p f.a * toP f.p t.a := by
  show toP f.p (Normalize f.p
    (mulOuter f.p f.a 0 t.a (List.replicate (f.a.length + t.a.length - 1) 0))) = _
  rw [toP_Normalize, toP_mulOuter f.p f.a 0 t.a _ (by simp; omega)]
  simp

/-! ### Structure of normalized coefficient lists -/

/-- The three data-model invariants of spec section 3 for a coefficient
list: non-empty, all coefficients in [0, modulus-1], and the top
coefficient non-zero unless the value is the canonical zero polynomial. -/
def WFa (p : ℕ) (l : List Int) : Prop :=
  l ≠ [] ∧ (∀ x ∈ l, 0 ≤ x ∧ x < (p : ℤ)) ∧ (l.getLastD 0 ≠ 0 ∨ l = [0])

instance (p : ℕ) (l : List Int) : Decidable (WFa p l) := by
  unfold WFa; infer_instance

/-- The data-model invariants for a Poly value. -/
def Poly.WF (f : Poly) : Prop := WFa f.p f.a

instance (f : Poly) : Decidable f.WF := by
  unfold Poly.WF; infer_instance

theorem stripRev_head (p : ℕ) :
    ∀ rl : List Int, rl ≠ [] →
      ∃ x s, stripRev p rl = x :: s ∧ (s = [] ∨ x.tmod (p : ℤ) ≠ 0) := by
  intro rl
  induction rl with
  | nil => intro h; exact absurd rfl h
  | cons x t ih =>
      intro _
      cases t with
      | nil => exact ⟨x, [], rfl, Or.inl rfl⟩
      | cons y t2 =>
          show ∃ x' s, (if x.tmod p = 0 then stripRev p (y :: t2) else x :: y :: t2) = x' :: s ∧ _
          by_cases hx : x.tmod (p : ℤ) = 0
          · rw [if_pos hx]; exact ih (by simp)
          · rw [if_neg hx]; exact ⟨x, y :: t2, rfl, Or.inr hx⟩

theorem stripRev_ne_nil (p : ℕ) (rl : List Int) (h : rl ≠ []) : stripRev p rl ≠ [] := by
  obtain ⟨x, s, hs, -⟩ := stripRev_head p rl h
  simp [hs]

theorem Normalize_ne_nil (p : ℕ) (l : List Int) (h : l ≠ []) : Normalize p l ≠ [] := by
  unfold Normalize
  have h1 := stripRev_ne_nil p l.reverse (by simpa using h)
  simp [h1]

theorem getLastD_map_rev (f : Int → Int) (x : Int) (s : List Int) :
    ((((x :: s).reverse).map f).getLastD 0) = f x := by
  rw [List.reverse_cons, List.map_append]
  simp

theorem Normalize_WF {p : ℕ} (hp : 0 < p) (l : List Int) (h : l ≠ []) :
    WFa p (Normalize p l) := by
  obtain ⟨x, s, hs, hd⟩ := stripRev_head p l.reverse (by simpa using h)
  refine ⟨Normalize_ne_nil p l h, ?_, ?_⟩
  · intro y hy
    unfold Normalize at hy
    obtain ⟨z, -, rfl⟩ := List.mem_map.mp hy
    exact ⟨normCoeff_nonneg hp z, normCoeff_lt hp z⟩
  · show (Normalize p l).getLastD 0 ≠ 0 ∨ Normalize p l = [0]
    unfold Normalize
    rw [hs]
    rcases hd with hnil | hx
    · subst hnil
      by_cases h0 : normCoeff p x = 0
      · right; simp [h0]
      · left; simpa using h0
    · left
      rw [getLastD_map_rev]
      rw [Ne, normCoeff_zero_iff hp]
      exact hx

theorem tmod_dvd_sub (a b : ℤ) : b ∣ a.tmod b - a :=
  ⟨-(a.tdiv b), by rw [Int.tmod_def]; ring⟩

theorem normCoeff_dvd_sub (p : ℕ) (x : ℤ) : (p : ℤ) ∣ normCoeff p x - x := by
  have h1 := tmod_dvd_sub (x.tmod p + p) (p : ℤ)
  have h2 := tmod_dvd_sub x (p : ℤ)
  have heq : normCoeff p x - x =
      ((x.tmod p + p).tmod p - (x.tmod p + p)) + (x.tmod p - x) + p := by
    unfold normCoeff; ring
  rw [heq]
  exact Int.dvd_add (Int.dvd_add h1 h2) (dvd_refl _)

theorem normCoeff_tmod_zero_iff (p : ℕ) (x : ℤ) :
    (normCoeff p x).tmod p = 0 ↔ x.tmod (p : ℤ) = 0 := by
  rw [← Int.dvd_iff_tmod_eq_zero, ← Int.dvd_iff_tmod_eq_zero]
  constructor
  · intro h
    have := Int.dvd_sub h (normCoeff_dvd_sub p x)
    simpa using this
  · intro h
    have := Int.dvd_add h (normCoeff_dvd_sub p x)
    simpa using this

theorem normCoeff_idem (p : ℕ) (x : ℤ) : normCoeff p (normCoeff p x) = normCoeff p x := by
  rcases Nat.eq_zero_or_pos p with h0 | hp
  · subst h0; simp [normCoeff]
  · exact normCoeff_of_range (normCoeff_nonneg hp x) (normCoeff_lt hp x)

theorem stripRev_map_normCoeff_fix (p : ℕ) {x : Int} (s : List Int)
    (hx : s = [] ∨ x.tmod (p : ℤ) ≠ 0) :
    stripRev p ((x :: s).map (normCoeff p)) = (x :: s).map (normCoeff p) := by
  cases s with
  | nil => rfl
  | cons y t =>
      rcases hx with hnil | hx
      · simp at hnil
      · show (if (normCoeff p x).tmod p = 0 then _ else _) = _
        rw [if_neg (by rw [normCoeff_tmod_zero_iff]; exact hx)]
        simp

/-- Normalize is idempotent (for every modulus and every raw list). -/
theorem Normalize_idem (p : ℕ) (l : List Int) :
    Normalize p (Normalize p l) = Normalize p l := by
  rcases eq_or_ne l [] with rfl | hl
  · rfl
  obtain ⟨x, s, hs, hd⟩ := stripRev_head p l.reverse (by simpa using hl)
  have key : Normalize p l = (List.map (normCoeff p) (x :: s)).reverse := by
    unfold Normalize
    rw [hs, List.map_reverse]
  rw [key]
  unfold Normalize
  rw [List.reverse_reverse]
  rw [stripRev_map_normCoeff_fix p s hd]
  rw [List.map_reverse, List.map_map]
  congr 1
  exact List.map_congr_left (fun a _ => normCoeff_idem p a)

theorem WFa_pos {p : ℕ} {l : List Int} (h : WFa p l) : 0 < p := by
  obtain ⟨hne, hr, -⟩ := h
  cases l with
  | nil => exact absurd rfl hne
  | cons c t =>
      have := hr c (by simp)
      have : (0 : ℤ) < p := by omega
      exact_mod_cast this

theorem Normalize_fix {p : ℕ} {l : List Int} (h : WFa p l) : Normalize p l = l := by
  obtain ⟨hne, hr, htop⟩ := h
  have hp : 0 < p := WFa_pos ⟨hne, hr, htop⟩
  have hstrip : stripRev p l.reverse = l.reverse := by
    rcases htop with htop | hzero
    · cases hrev : l.reverse with
      | nil => simp at hrev; exact absurd hrev hne
      | cons x t =>
          cases t with
          | nil => rfl
          | cons y t2 =>
              have hxl : x = l.getLastD 0 := by
                have h1 : l.getLast? = some x := by
                  rw [← List.head?_reverse, hrev]; rfl
                rw [List.getLastD_eq_getLast?, h1]; rfl
              have hxmem : x ∈ l := by
                have : x ∈ l.reverse := by rw [hrev]; simp
                simpa using this
              have hxr := hr x hxmem
              show (if x.tmod p = 0 then _ else _) = _
              rw [if_neg]
              rw [Int.tmod_eq_of_lt hxr.1 hxr.2]
              rw [hxl] at hxr ⊢
              exact htop
    · rw [hzero]; rfl
  unfold Normalize
  rw [hstrip, List.reverse_reverse]
  have : ∀ a ∈ l, normCoeff p a = a := by
    intro a ha
    exact normCoeff_of_range (hr a ha).1 (hr a ha).2
  rw [List.map_congr_left this]
  simp

/-- Constructed values are well-formed (for a positive modulus and a
non-empty raw coefficient list). -/
theorem ofList_WF {p : ℕ} (hp : 0 < p) {v : List Int} (hv : v ≠ []) :
    (Poly.ofList v p).WF := Normalize_WF hp v hv

/-! ### Claim C7: Normalize against the spec's reference procedure -/

/-- The drop loop of the spec's reference normalization, acting on the
reversed list: repeatedly drop the highest-index coefficient while it is
zero and more than one coefficient remains. -/
def dropTopZerosRev : List Int → List Int
  | [] => []
  | [x] => [x]
  | x :: y :: t => if x = 0 then dropTopZerosRev (y :: t) else x :: y :: t

/-- Reference procedure of spec section 4.2: first reduce every coefficient
into [0, modulus-1] (the canonical residue), then repeatedly drop the
highest-index coefficient while it is zero and more than one remains. -/
def NormalizeRef (p : ℕ) (a : List Int) : List Int :=
  (dropTopZerosRev ((a.map (fun x => x % (p : ℤ))).reverse)).reverse

theorem normCoeff_eq_emod' (p : ℕ) (x : ℤ) : normCoeff p x = x % (p : ℤ) := by
  rcases Nat.eq_zero_or_pos p with h0 | hp
  · subst h0; simp [normCoeff]
  · exact normCoeff_eq_emod hp x

theorem stripRev_cons2 (p : ℕ) (a b : Int) (t : List Int) :
    stripRev p (a :: b :: t) = if a.tmod p = 0 then stripRev p (b :: t) else a :: b :: t := rfl

theorem dropTopZerosRev_cons2 (a b : Int) (t : List Int) :
    dropTopZerosRev (a :: b :: t) = if a = 0 then dropTopZerosRev (b :: t) else a :: b :: t := rfl

theorem map_emod_stripRev (p : ℕ) :
    ∀ rl : List Int,
      (stripRev p rl).map (fun x => x % (p : ℤ)) =
        dropTopZerosRev (rl.map (fun x => x % (p : ℤ))) := by
  intro rl
  induction rl with
  | nil => rfl
  | cons x t ih =>
      cases t with
      | nil => rfl
      | cons y t2 =>
          have hcond : x.tmod (p : ℤ) = 0 ↔ x % (p : ℤ) = 0 := by
            rw [← Int.dvd_iff_tmod_eq_zero]
            constructor
            · exact fun h => Int.emod_eq_zero_of_dvd h
            · exact fun h => Int.dvd_of_emod_eq_zero h
          simp only [List.map_cons, stripRev_cons2, dropTopZerosRev_cons2]
          by_cases hx : x.tmod (p : ℤ) = 0
          · rw [if_pos hx, if_pos (hcond.mp hx), ih]
            simp
          · rw [if_neg hx, if_neg (fun h => hx (hcond.mpr h))]
            simp

/-- C7: Normalize produces exactly the result of the spec's reference
procedure (reduce every coefficient into the canonical range, then drop
trailing zero coefficients while more than one remains), and normalizing
an already-normalized value is a no-op. -/
theorem claim_C7_normalize_matches_reference_and_idempotent (p : ℕ) (a : List Int) :
    Normalize p a = NormalizeRef p a ∧ Normalize p (Normalize p a) = Normalize p a := by
  refine ⟨?_, Normalize_idem p a⟩
  show ((stripRev p a.reverse).reverse).map (normCoeff p) = NormalizeRef p a
  rw [List.map_reverse]
  rw [List.map_congr_left (fun x _ => normCoeff_eq_emod' p x)]
  rw [map_emod_stripRev p a.reverse, List.map_reverse]
  rfl

/-! ### Injectivity of toP on well-formed lists -/

theorem intCast_inj_of_range {p : ℕ} {x y : ℤ} (hx0 : 0 ≤ x) (hx1 : x < p)
    (hy0 : 0 ≤ y) (hy1 : y < p) (h : ((x : ℤ) : ZMod p) = (y : ZMod p)) : x = y := by
  rw [ZMod.intCast_eq_intCast_iff'] at h
  rwa [Int.emod_eq_of_lt hx0 hx1, Int.emod_eq_of_lt hy0 hy1] at h

theorem getD_length_sub_one {l : List Int} (h : l ≠ []) :
    l.getD (l.length - 1) 0 = l.getLastD 0 := by
  rw [List.getLastD_eq_getLast?, List.getLast?_eq_getElem?]
  simp [List.getD_eq_getElem?_getD]

theorem WF_last_cast_ne_zero {p : ℕ} {l : List Int} (h : WFa p l) (hz : l ≠ [0]) :
    ((l.getLastD 0 : ℤ) : ZMod p) ≠ 0 := by
  obtain ⟨hne, hr, htop⟩ := h
  have hp : 0 < p := WFa_pos ⟨hne, hr, htop⟩
  have hlast : l.getLastD 0 ≠ 0 := htop.resolve_right hz
  have hmem : l.getLastD 0 ∈ l := by
    cases l with
    | nil => exact absurd rfl hne
    | cons c t =>
        rw [List.getLastD_eq_getLast?, List.getLast?_eq_getLast _ (by simp)]
        exact List.getLast_mem _
  intro hcast
  exact hlast (intCast_inj_of_range (hr _ hmem).1 (hr _ hmem).2 le_rfl
    (by exact_mod_cast hp) (by simpa using hcast))

theorem toP_length_le_of_cast_eq {p : ℕ} {l1 l2 : List Int} (h1 : WFa p l1) (h2 : WFa p l2)
    (h : toP p l1 = toP p l2) : l2.length ≤ l1.length := by
  by_contra hlt
  push_neg at hlt
  have hj : l1.length ≤ l2.length - 1 := by omega
  have hc : (toP p l1).coeff (l2.length - 1) = (toP p l2).coeff (l2.length - 1) := by rw [h]
  rw [toP_coeff, toP_coeff, List.getD_eq_default _ _ hj] at hc
  have hz := WF_last_cast_ne_zero h2 ?_
  · rw [← getD_length_sub_one h2.1] at hz
    exact hz (by simpa using hc.symm)
  · intro h0
    have hl2 : l2.length = 1 := by rw [h0]; rfl
    have hl1 : l1.length = 0 := by omega
    exact h1.1 (List.length_eq_zero.mp hl1)

theorem toP_inj {p : ℕ} {l1 l2 : List Int} (h1 : WFa p l1) (h2 : WFa p l2)
    (h : toP p l1 = toP p l2) : l1 = l2 := by
  have hlen : l1.length = l2.length :=
    le_antisymm (toP_length_le_of_cast_eq h2 h1 h.symm) (toP_length_le_of_cast_eq h1 h2 h)
  apply List.ext_getElem hlen
  intro i hi1 hi2
  have hc : (toP p l1).coeff i = (toP p l2).coeff i := by rw [h]
  rw [toP_coeff, toP_coeff] at hc
  rw [List.getD_eq_getElem _ _ hi1, List.getD_eq_getElem _ _ hi2] at hc
  have m1 : l1[i] ∈ l1 := List.getElem_mem hi1
  have m2 : l2[i] ∈ l2 := List.getElem_mem hi2
  exact intCast_inj_of_range (h1.2.1 _ m1).1 (h1.2.1 _ m1).2 (h2.2.1 _ m2).1 (h2.2.1 _ m2).2 hc

@[simp] theorem toP_zero_rep (p : ℕ) : toP p [0] = 0 := by
  simp [toP_cons]

theorem WF_toP_eq_zero_iff {p : ℕ} {l : List Int} (h : WFa p l) :
    toP p l = 0 ↔ l = [0] := by
  constructor
  · intro h0
    have hp : 0 < p := WFa_pos h
    have hwf0 : WFa p [0] := ⟨by simp, by intro x hx; simp at hx; omega, Or.inr rfl⟩
    exact toP_inj h hwf0 (by simpa using h0)
  · intro h0; rw [h0]; simp

theorem toP_natDegree_WF {p : ℕ} {l : List Int} (h : WFa p l) (hz : l ≠ [0]) :
    (toP p l).natDegree = l.length - 1 ∧ toP p l ≠ 0 := by
  have hne : toP p l ≠ 0 := fun h0 => hz ((WF_toP_eq_zero_iff h).mp h0)
  refine ⟨?_, hne⟩
  have hub : (toP p l).natDegree < l.length := by
    rw [Polynomial.natDegree_lt_iff_degree_lt hne]
    exact_mod_cast toP_degree_lt p l
  have hlb : l.length - 1 ≤ (toP p l).natDegree := by
    apply Polynomial.le_natDegree_of_ne_zero
    rw [toP_coeff, getD_length_sub_one h.1]
    exact WF_last_cast_ne_zero h hz
  omega

/-! ### Claim C5: division by the zero polynomial -/

/-- C5: DivMod with the canonical zero polynomial as divisor fails with
DivisionByZeroPolynomial (the check is the first statement of DivMod, so
no result pair is ever produced). -/
theorem claim_C5_divmod_by_zero_fails (A : Poly) (q : ℕ) :
    Poly.DivMod A (Poly.zero q) = .error .DivisionByZeroPolynomial := by
  unfold Poly.DivMod Poly.zero
  rw [if_pos]
  exact ⟨by simp [Poly.Degree], rfl⟩

/-! ### Claim C8: the extended Euclid loop of InvMod -/

theorem egcdLoop_succ (fuel : ℕ) (r0 r1 s0 s1 : ℤ) :
    egcdLoop (fuel + 1) r0 r1 s0 s1 =
      if r1 = 0 then (r0, s0)
      else egcdLoop fuel r1 (r0 - r0.tdiv r1 * r1) s1 (s0 - r0.tdiv r1 * s1) := rfl

theorem egcdLoop_spec (a b : ℤ) :
    ∀ (fuel : ℕ) (r0 r1 s0 s1 t0 t1 : ℤ),
      0 ≤ r0 → 0 ≤ r1 → r1.natAbs < fuel →
      r0 = s0 * a + t0 * b → r1 = s1 * a + t1 * b →
      (0 ≤ (egcdLoop fuel r0 r1 s0 s1).1 ∧
       (egcdLoop fuel r0 r1 s0 s1).1 ∣ r0 ∧ (egcdLoop fuel r0 r1 s0 s1).1 ∣ r1 ∧
       (∀ c : ℤ, c ∣ r0 → c ∣ r1 → c ∣ (egcdLoop fuel r0 r1 s0 s1).1)) ∧
      ∃ t, (egcdLoop fuel r0 r1 s0 s1).1 = (egcdLoop fuel r0 r1 s0 s1).2 * a + t * b := by
  intro fuel
  induction fuel with
  | zero => intro r0 r1 s0 s1 t0 t1 _ _ hfuel _ _; omega
  | succ fuel ih =>
      intro r0 r1 s0 s1 t0 t1 h0 h1 hfuel hb0 hb1
      by_cases hr : r1 = 0
      · simp only [egcdLoop_succ, if_pos hr]
        subst hr
        exact ⟨⟨h0, dvd_refl r0, dvd_zero r0, fun c hc _ => hc⟩, t0, hb0⟩
      · have hr1pos : 0 < r1 := lt_of_le_of_ne h1 (Ne.symm hr)
        have htdiv : r0.tdiv r1 = r0 / r1 := Int.tdiv_eq_ediv h0 h1
        have hr1' : r0 - r0.tdiv r1 * r1 = r0 % r1 := by
          rw [htdiv, Int.emod_def]; ring
        have hmod0 : 0 ≤ r0 % r1 := Int.emod_nonneg r0 hr
        have hmodlt : r0 % r1 < r1 := Int.emod_lt_of_pos r0 hr1pos
        have hrec := ih r1 (r0 - r0.tdiv r1 * r1) s1 (s0 - r0.tdiv r1 * s1)
          t1 (t0 - r0.tdiv r1 * t1) h1 (by omega) (by omega)
          hb1 (by rw [hb0, hb1]; ring)
        simp only [egcdLoop_succ, if_neg hr]
        obtain ⟨⟨hg0, hgr1, hgr1', hgreat⟩, t, hbez⟩ := hrec
        refine ⟨⟨hg0, ?_, hgr1, ?_⟩, t, hbez⟩
        · have hd : (egcdLoop fuel r1 (r0 - r0.tdiv r1 * r1) s1 (s0 - r0.tdiv r1 * s1)).1 ∣
              r0 - r0.tdiv r1 * r1 + r0.tdiv r1 * r1 :=
            dvd_add hgr1' (Dvd.dvd.mul_left hgr1 _)
          simpa using hd
        · intro c hc0 hc1
          exact hgreat c hc1 (by
            have : r0 - r0.tdiv r1 * r1 = r0 - r0.tdiv r1 * r1 := rfl
            exact dvd_sub hc0 (Dvd.dvd.mul_left hc1 _))

theorem InvMod_spec (a p : ℤ) (ha : 0 ≤ a) (hp : 2 ≤ p) :
    (Int.gcd a p ≠ 1 → InvMod a p = .error .NotInvertible) ∧
    (Int.gcd a p = 1 →
      ∃ r, InvMod a p = .ok r ∧ 0 ≤ r ∧ r < p ∧ a * r % p = 1) := by
  have hfuel : p.natAbs < p.natAbs + 2 := by omega
  have hspec := egcdLoop_spec a p (p.natAbs + 2) a p 1 0 0 1 ha (by omega) hfuel
    (by ring) (by ring)
  obtain ⟨⟨hg0, hga, hgp, hgreat⟩, t, hbez⟩ := hspec
  have hgcd : (egcdLoop (p.natAbs + 2) a p 1 0).1 = Int.gcd a p :=
    Int.gcd_greatest hg0 hga hgp hgreat
  constructor
  · intro hne
    unfold InvMod
    rw [if_pos]
    rw [hgcd]
    exact_mod_cast fun h => hne (by exact_mod_cast h)
  · intro heq
    have hg1 : (egcdLoop (p.natAbs + 2) a p 1 0).1 = 1 := by
      rw [hgcd, heq]; rfl
    refine ⟨((egcdLoop (p.natAbs + 2) a p 1 0).2.tmod p + p).tmod p, ?_, ?_, ?_, ?_⟩
    · unfold InvMod
      rw [if_neg (by rw [hg1]; exact fun h => h rfl)]
    all_goals {
      have hptn : ((p.toNat : ℕ) : ℤ) = p := Int.toNat_of_nonneg (by omega)
      have hpos : 0 < p.toNat := by omega
      have hnc : ((egcdLoop (p.natAbs + 2) a p 1 0).2.tmod p + p).tmod p =
          normCoeff p.toNat (egcdLoop (p.natAbs + 2) a p 1 0).2 := by
        unfold normCoeff
        rw [hptn]
      first
      | (rw [hnc]; exact normCoeff_nonneg hpos _)
      | (rw [hnc]; have := normCoeff_lt hpos (egcdLoop (p.natAbs + 2) a p 1 0).2; omega)
      | ( -- the congruence a * r = 1 modulo p
        
        rw [hnc]
        have hdvd : p ∣ normCoeff p.toNat (egcdLoop (p.natAbs + 2) a p 1 0).2 -
            (egcdLoop (p.natAbs + 2) a p 1 0).2 := by
          have := normCoeff_dvd_sub p.toNat (egcdLoop (p.natAbs + 2) a p 1 0).2
          rwa [hptn] at this
        have hkey : p ∣ a * normCoeff p.toNat (egcdLoop (p.natAbs + 2) a p 1 0).2 - 1 := by
          obtain ⟨c, hc⟩ := hdvd
          have h2 : normCoeff p.toNat (egcdLoop (p.natAbs + 2) a p 1 0).2 =
              (egcdLoop (p.natAbs + 2) a p 1 0).2 + p * c := by omega
          have h3 : (egcdLoop (p.natAbs + 2) a p 1 0).2 * a + t * p = 1 := by
            rw [← hbez, hg1]
          refine ⟨a * c - t, ?_⟩
          linear_combination a * h2 + h3
        obtain ⟨c, hc⟩ := hkey
        have : a * normCoeff p.toNat (egcdLoop (p.natAbs + 2) a p 1 0).2 = 1 + p * c := by
          omega
        rw [this, Int.add_mul_emod_self_left]
        exact Int.emod_eq_of_lt (by omega) (by omega))
    }

/-- C8 (amended): for non-negative a and modulus p at least 2, InvMod fails
with NotInvertible exactly when gcd(a, p) is not 1, and otherwise returns
the canonical representative r of the inverse in [0, p-1] with
(a * r) mod p = 1. -/
theorem claim_C8_modinverse_amended (a p : ℤ) (ha : 0 ≤ a) (hp : 2 ≤ p) :
    (Int.gcd a p ≠ 1 → InvMod a p = .error .NotInvertible) ∧
    (Int.gcd a p = 1 →
      ∃ r, InvMod a p = .ok r ∧ 0 ≤ r ∧ r < p ∧ a * r % p = 1) :=
  InvMod_spec a p ha hp

/-- C8 counterexample: a = -1 and p = 2 have gcd 1, so ModInverse should
succeed, but the code's truncated-division Euclid ends with r0 = -1 and
throws NotInvertible. -/
theorem claim_C8_counterexample :
    Int.gcd (-1) 2 = 1 ∧ InvMod (-1) 2 = .error .NotInvertible := by
  constructor
  · decide
  · decide

/-- Witness for the amended C8 theorem at a = 1, p = 2. -/
theorem claim_C8_modinverse_amended_witness :
    (Int.gcd 1 2 ≠ 1 → InvMod 1 2 = .error .NotInvertible) ∧
    (Int.gcd 1 2 = 1 →
      ∃ r, InvMod 1 2 = .ok r ∧ 0 ≤ r ∧ r < 2 ∧ 1 * r % 2 = 1) :=
  claim_C8_modinverse_amended 1 2 (by decide) (by decide)

/-! ### Specification of DivMod (claim C2) -/

theorem zeroRep_iff (R : List Int) : (R.length = 1 ∧ R.headD 0 = 0) ↔ R = [0] := by
  constructor
  · rintro ⟨h1, h2⟩
    cases R with
    | nil => simp at h1
    | cons x t =>
        cases t with
        | nil => simp at h2; rw [h2]
        | cons y t2 => simp at h1
  · rintro rfl; exact ⟨rfl, rfl⟩

theorem subVecs_length (p : ℕ) :
    ∀ t r : List Int, t.length ≤ r.length → (subVecs p r t).length = r.length := by
  intro t
  induction t with
  | nil => intro r _; cases r <;> rfl
  | cons tx t2 ih =>
      intro r hlen
      cases r with
      | nil => simp at hlen
      | cons rx r2 =>
          show ((rx - tx + p).tmod p :: subVecs p r2 t2).length = _
          simp at hlen ⊢
          exact ih r2 hlen

theorem toP_map_mulmod (p : ℕ) (c : Int) (d : List Int) :
    toP p (d.map (fun di => (c * di).tmod p)) = Polynomial.C ((c : ℤ) : ZMod p) * toP p d := by
  induction d with
  | nil => simp
  | cons d0 d2 ih =>
      simp only [List.map_cons, toP_cons, ih, intCast_tmod]
      push_cast
      simp only [map_mul]
      ring

theorem divmodLoop_succ (p : ℕ) (d : List Int) (invLead : Int) (fuel : ℕ) (Q R : List Int) :
    divmodLoop p d invLead (fuel + 1) Q R =
      if d.length ≤ R.length ∧ ¬(R.length = 1 ∧ R.headD 0 = 0) then
        divmodLoop p d invLead fuel
          (Q.set (R.length - d.length) ((R.getLastD 0 * invLead).tmod p))
          (Poly.sub ⟨p, R⟩ (Poly.ofList (List.replicate (R.length - d.length) 0 ++
            d.map (fun di => (((R.getLastD 0 * invLead).tmod p) * di).tmod p)) p)).a
      else (Q, R) := rfl

theorem divmodLoop_zeroRep (p : ℕ) (d : List Int) (invLead : Int) (hd : d ≠ []) :
    ∀ (fuel : ℕ) (Q : List Int), divmodLoop p d invLead fuel Q [0] = (Q, [0]) := by
  intro fuel Q
  cases fuel with
  | zero => rfl
  | succ fuel =>
      rw [divmodLoop_succ, if_neg]
      rintro ⟨-, h2⟩
      exact h2 ⟨rfl, rfl⟩

/-- The coefficient of toP p l at the top index, for non-empty l. -/
theorem toP_coeff_top (p : ℕ) {l : List Int} (h : l ≠ []) :
    (toP p l).coeff (l.length - 1) = ((l.getLastD 0 : ℤ) : ZMod p) := by
  rw [toP_coeff, getD_length_sub_one h]

theorem WFa_zeroRep {p : ℕ} (hp : 0 < p) : WFa p [0] :=
  ⟨by simp, fun x hx => by simp at hx; constructor <;> omega, Or.inr rfl⟩

theorem getLastD_mem {l : List Int} (h : l ≠ []) : l.getLastD 0 ∈ l := by
  cases l with
  | nil => exact absurd rfl h
  | cons c t =>
      rw [List.getLastD_eq_getLast?, List.getLast?_eq_getLast _ (by simp)]
      exact List.getLast_mem _

theorem divmodLoop_spec {p : ℕ} (hp : 0 < p) (d : List Int) (invLead : Int)
    (hd : WFa p d) (hdz : d ≠ [0]) (hinv0 : 0 ≤ invLead)
    (hinv : ((d.getLastD 0 : ℤ) : ZMod p) * ((invLead : ℤ) : ZMod p) = 1) :
    ∀ (fuel : ℕ) (Q R : List Int),
      WFa p R → R.length < fuel →
      (∀ x ∈ Q, 0 ≤ x ∧ x < (p : ℤ)) →
      (d.length ≤ R.length → R.length - d.length < Q.length) →
      (d.length ≤ R.length → ¬(R.length = 1 ∧ R.headD 0 = 0) →
        ∀ j, j ≤ R.length - d.length → Q.getD j 0 = 0) →
      toP p (divmodLoop p d invLead fuel Q R).1 * toP p d +
          toP p (divmodLoop p d invLead fuel Q R).2 = toP p Q * toP p d + toP p R ∧
      WFa p (divmodLoop p d invLead fuel Q R).2 ∧
      ((divmodLoop p d invLead fuel Q R).2 = [0] ∨
        (divmodLoop p d invLead fuel Q R).2.length < d.length) ∧
      (divmodLoop p d invLead fuel Q R).1.length = Q.length ∧
      (∀ x ∈ (divmodLoop p d invLead fuel Q R).1, 0 ≤ x ∧ x < (p : ℤ)) := by
  intro fuel
  induction fuel with
  | zero => intro Q R _ hfuel _ _ _; omega
  | succ fuel ih =>
      intro Q R hR hfuel hQr hQs hQz
      have hdne : d ≠ [] := hd.1
      by_cases hguard : d.length ≤ R.length ∧ ¬(R.length = 1 ∧ R.headD 0 = 0)
      case neg =>
        rw [divmodLoop_succ, if_neg hguard]
        refine ⟨rfl, hR, ?_, rfl, hQr⟩
        rcases Classical.em (d.length ≤ R.length) with hle | hgt
        · left
          have h2 : R.length = 1 ∧ R.headD 0 = 0 := by
            by_contra hc
            exact hguard ⟨hle, hc⟩
          exact (zeroRep_iff R).mp h2
        · right
          show R.length < d.length
          omega
      case pos =>
        obtain ⟨hlen, hnz⟩ := hguard
        rw [divmodLoop_succ, if_pos ⟨hlen, hnz⟩]
        have hRne : R ≠ [] := hR.1
        have hRz : R ≠ [0] := fun h => hnz (by rw [h]; exact ⟨rfl, rfl⟩)
        set coef := (R.getLastD 0 * invLead).tmod (p : ℤ) with hcoefdef
        set shift := R.length - d.length with hshiftdef
        set sub := List.replicate shift 0 ++ d.map (fun di => (coef * di).tmod (p : ℤ))
          with hsubdef
        set R' := (Poly.sub ⟨p, R⟩ (Poly.ofList sub p)).a with hRdef2
        set Q' := Q.set shift coef with hQdef2
        have hlast0 : 0 ≤ R.getLastD 0 := (hR.2.1 _ (getLastD_mem hRne)).1
        have hcoef0 : 0 ≤ coef := Int.tmod_nonneg _ (mul_nonneg hlast0 hinv0)
        have hcoefp : coef < p := Int.tmod_lt_of_pos _ (by exact_mod_cast hp)
        have hdlenpos : 0 < d.length := List.length_pos.mpr hdne
        have hRlenpos : 0 < R.length := List.length_pos.mpr hRne
        have htoPsub : toP p sub =
            Polynomial.X ^ shift * (Polynomial.C ((coef : ℤ) : ZMod p) * toP p d) := by
          rw [hsubdef, toP_append, toP_replicate_zero, toP_map_mulmod]
          simp
        have htoPR' : toP p R' =
            toP p R - Polynomial.X ^ shift * (Polynomial.C ((coef : ℤ) : ZMod p) * toP p d) := by
          rw [hRdef2]
          rw [toP_sub ⟨p, R⟩ (Poly.ofList sub p)]
          show toP p R - toP p (Normalize p sub) = _
          rw [toP_Normalize, htoPsub]
        have hR'WF : WFa p R' := by
          rw [hRdef2]
          show WFa p (Normalize p (subVecs p (padTo R (Normalize p sub).length)
            (Normalize p sub)))
          apply Normalize_WF hp
          intro hnil
          have h1 : (Normalize p sub).length ≤ (padTo R (Normalize p sub).length).length := by
            rw [padTo_length]; omega
          have h2 := subVecs_length p (Normalize p sub) _ h1
          rw [hnil] at h2
          rw [padTo_length] at h2
          simp at h2
          omega
        have hcancel : ∀ m : ℕ, R.length - 1 ≤ m → (toP p R').coeff m = 0 := by
          intro m hm
          rw [htoPR', Polynomial.coeff_sub]
          have hcc : ((coef : ℤ) : ZMod p) =
              ((R.getLastD 0 : ℤ) : ZMod p) * ((invLead : ℤ) : ZMod p) := by
            rw [hcoefdef, intCast_tmod]
            push_cast
            ring
          rcases eq_or_lt_of_le hm with heq | hlt
          · have hidx : m = (d.length - 1) + shift := by omega
            rw [hidx, Polynomial.coeff_X_pow_mul, Polynomial.coeff_C_mul,
              toP_coeff_top p hdne]
            have hidx2 : (d.length - 1) + shift = R.length - 1 := by omega
            rw [hidx2, toP_coeff_top p hRne, hcc]
            have := hinv
            linear_combination (-((R.getLastD 0 : ℤ) : ZMod p)) * this
          · have h1 : (toP p R).coeff m = 0 := by
              rw [toP_coeff, List.getD_eq_default]
              · simp
              · omega
            have hms : shift ≤ m := by omega
            have hidx : m = (m - shift) + shift := by omega
            rw [h1, hidx, Polynomial.coeff_X_pow_mul, Polynomial.coeff_C_mul, toP_coeff,
              List.getD_eq_default]
            · simp
            · omega
        have hdich : R' = [0] ∨ R'.length < R.length := by
          by_cases h0 : R' = [0]
          · exact Or.inl h0
          · right
            have hnd := toP_natDegree_WF hR'WF h0
            have hR'ne : R' ≠ [] := hR'WF.1
            have hR'pos : 0 < R'.length := List.length_pos.mpr hR'ne
            have hlt : (toP p R').natDegree < R.length - 1 := by
              by_contra hge
              push_neg at hge
              have hlead : (toP p R').coeff (toP p R').natDegree ≠ 0 := by
                rw [← Polynomial.leadingCoeff]
                exact Polynomial.leadingCoeff_ne_zero.mpr hnd.2
              exact hlead (hcancel _ hge)
            omega
        have hshiftlt : shift < Q.length := hQs hlen
        have hQ'len : Q'.length = Q.length := by rw [hQdef2]; simp
        have hQ'r : ∀ x ∈ Q', 0 ≤ x ∧ x < (p : ℤ) := by
          intro x hx
          rcases List.mem_or_eq_of_mem_set hx with h | h
          · exact hQr x h
          · rw [h]; exact ⟨hcoef0, hcoefp⟩
        have htoPQ' : toP p Q' =
            toP p Q + Polynomial.C ((coef : ℤ) : ZMod p) * Polynomial.X ^ shift := by
          rw [hQdef2, toP_set p Q shift coef hshiftlt]
          rw [hQz hlen hnz shift le_rfl]
          simp
        have hstep : toP p Q' * toP p d + toP p R' = toP p Q * toP p d + toP p R := by
          rw [htoPQ', htoPR']; ring
        rcases hdich with h0 | hlt
        · rw [h0]
          rw [divmodLoop_zeroRep p d invLead hdne fuel Q']
          rw [h0] at hstep
          refine ⟨?_, WFa_zeroRep hp, Or.inl rfl, hQ'len, hQ'r⟩
          show toP p Q' * toP p d + toP p [0] = _
          simpa using hstep
        · have hQ'z : d.length ≤ R'.length → ¬(R'.length = 1 ∧ R'.headD 0 = 0) →
              ∀ j, j ≤ R'.length - d.length → Q'.getD j 0 = 0 := by
            intro h1 h2 j hj
            have hjlt : j < shift := by omega
            rw [hQdef2, getD_set Q shift coef j hshiftlt]
            rw [if_neg (by omega)]
            exact hQz hlen hnz j (by omega)
          have hrec := ih Q' R' hR'WF (by omega) hQ'r
            (fun h => by rw [hQ'len]; omega) hQ'z
          obtain ⟨he, hwf, hd2, hl2, hr2⟩ := hrec
          refine ⟨?_, hwf, hd2, by rw [hl2, hQ'len], hr2⟩
          rw [he, hstep]

theorem addVecs_length (p : ℕ) :
    ∀ t r : List Int, t.length ≤ r.length → (addVecs p r t).length = r.length := by
  intro t
  induction t with
  | nil => intro r _; cases r <;> rfl
  | cons tx t2 ih =>
      intro r hlen
      cases r with
      | nil => simp at hlen
      | cons rx r2 =>
          show ((rx + tx).tmod p :: addVecs p r2 t2).length = _
          simp at hlen ⊢
          exact ih r2 hlen

theorem Normalize_entries {p : ℕ} (hp : 0 < p) (l : List Int) :
    ∀ x ∈ Normalize p l, 0 ≤ x ∧ x < (p : ℤ) := by
  intro x hx
  unfold Normalize at hx
  obtain ⟨z, -, rfl⟩ := List.mem_map.mp hx
  exact ⟨normCoeff_nonneg hp z, normCoeff_lt hp z⟩

theorem getD_replicate_zero (n j : ℕ) : (List.replicate n (0 : ℤ)).getD j 0 = 0 := by
  induction n generalizing j with
  | zero => simp
  | succ m ih =>
      cases j with
      | zero => simp [List.replicate_succ]
      | succ i => simpa [List.replicate_succ] using ih i

theorem InvMod_lead_ok {p : ℕ} (hprime : p.Prime) {d : List Int} (hd : WFa p d)
    (hdz : d ≠ [0]) :
    ∃ invLead, InvMod (d.getLastD 0) p = .ok invLead ∧ 0 ≤ invLead ∧ invLead < p ∧
      ((d.getLastD 0 : ℤ) : ZMod p) * ((invLead : ℤ) : ZMod p) = 1 := by
  have hp2 : 2 ≤ ((p : ℕ) : ℤ) := by exact_mod_cast hprime.two_le
  have hl := hd.2.1 _ (getLastD_mem hd.1)
  have hlne : d.getLastD 0 ≠ 0 := (hd.2.2).resolve_right hdz
  have hgcd : Int.gcd (d.getLastD 0) p = 1 := by
    have h1 : ¬ ((p : ℕ) : ℤ) ∣ d.getLastD 0 := by
      intro hdvd
      have := Int.le_of_dvd (by omega) hdvd
      omega
    have hcop : Nat.Coprime p (d.getLastD 0).natAbs :=
      (Nat.Prime.coprime_iff_not_dvd hprime).mpr (by
        intro hdvd
        apply h1
        have h2 : ((p : ℕ) : ℤ) ∣ (((d.getLastD 0).natAbs : ℕ) : ℤ) :=
          Int.natCast_dvd_natCast.mpr hdvd
        rwa [Int.natAbs_of_nonneg hl.1] at h2)
    rw [Int.gcd_def]
    simp only [Int.natAbs_ofNat]
    exact Nat.coprime_comm.mp hcop
  obtain ⟨-, hok⟩ := InvMod_spec (d.getLastD 0) p hl.1 hp2
  obtain ⟨r, hr, h0, hlt, hmod⟩ := hok hgcd
  refine ⟨r, hr, h0, by exact_mod_cast hlt, ?_⟩
  have hcast : ((d.getLastD 0 * r : ℤ) : ZMod p) = ((1 : ℤ) : ZMod p) := by
    rw [ZMod.intCast_eq_intCast_iff', hmod]
    symm
    exact Int.emod_eq_of_lt (by omega) (by omega)
  push_cast at hcast
  exact hcast

/-- Full functional specification of Poly::DivMod for well-formed inputs
over a prime modulus with a non-zero divisor. -/
theorem DivMod_spec {A d : Poly} (hprime : A.p.Prime) (hA : A.WF) (hd : d.WF)
    (hpp : d.p = A.p) (hdz : d.a ≠ [0]) :
    ∃ Q R : Poly,
      Poly.DivMod A d = .ok (Q, R) ∧
      Q.p = A.p ∧ R.p = A.p ∧
      toP A.p Q.a * toP A.p d.a + toP A.p R.a = toP A.p A.a ∧
      R.WF ∧ (R.a = [0] ∨ R.a.length < d.a.length) ∧
      Normalize A.p Q.a = Q.a ∧ Normalize A.p R.a = R.a ∧
      (∀ x ∈ Q.a, 0 ≤ x ∧ x < (A.p : ℤ)) ∧
      (d.a.length ≤ A.a.length → Q.WF) := by
  have hp : 0 < A.p := hprime.pos
  have hd' : WFa A.p d.a := hpp ▸ hd
  obtain ⟨invLead, hInvEq, hinv0, hinvp, hinv⟩ := InvMod_lead_ok hprime hd' hdz
  have hcond : ¬(d.Degree = 0 ∧ d.a.headD 0 = 0) := by
    rintro ⟨h1, h2⟩
    apply hdz
    apply (zeroRep_iff d.a).mp
    refine ⟨?_, h2⟩
    unfold Poly.Degree at h1
    omega
  have hQ0len : (List.replicate (max 0 (A.Degree - d.Degree + 1)).toNat (0 : ℤ)).length =
      (max 0 (A.Degree - d.Degree + 1)).toNat := by simp
  have hloop := divmodLoop_spec hp d.a invLead hd' hdz hinv0 hinv
    (A.a.length + 1) (List.replicate (max 0 (A.Degree - d.Degree + 1)).toNat 0) A.a
    hA (by omega)
    (by intro x hx
        rw [List.eq_of_mem_replicate hx]
        constructor <;> omega)
    (by intro hddA
        rw [hQ0len]
        unfold Poly.Degree
        have h1 : 0 < d.a.length := List.length_pos.mpr hd'.1
        omega)
    (by intro _ _ j _
        exact getD_replicate_zero _ j)
  set Q0 : List Int := List.replicate (max 0 (A.Degree - d.Degree + 1)).toNat 0 with hQ0
  set QR := divmodLoop A.p d.a invLead (A.a.length + 1) Q0 A.a with hQR
  obtain ⟨heq, hRwf, hRdich, hQlen, hQr⟩ := hloop
  have hDM : Poly.DivMod A d = .ok (⟨A.p, Normalize A.p QR.1⟩, ⟨A.p, Normalize A.p QR.2⟩) := by
    unfold Poly.DivMod
    rw [if_neg hcond, hInvEq]
    rfl
  have hRfix : Normalize A.p QR.2 = QR.2 := Normalize_fix hRwf
  refine ⟨⟨A.p, Normalize A.p QR.1⟩, ⟨A.p, Normalize A.p QR.2⟩, hDM, rfl, rfl, ?_, ?_, ?_,
    Normalize_idem _ _, Normalize_idem _ _, ?_, ?_⟩
  · show toP A.p (Normalize A.p QR.1) * toP A.p d.a + toP A.p (Normalize A.p QR.2) = _
    rw [toP_Normalize, toP_Normalize, heq, hQ0]
    simp
  · show WFa A.p (Normalize A.p QR.2)
    rw [hRfix]
    exact hRwf
  · show Normalize A.p QR.2 = [0] ∨ (Normalize A.p QR.2).length < d.a.length
    rw [hRfix]
    exact hRdich
  · exact Normalize_entries hp _
  · intro hlen
    show WFa A.p (Normalize A.p QR.1)
    apply Normalize_WF hp
    intro hnil
    have h1 : 0 < d.a.length := List.length_pos.mpr hd'.1
    have h2 : QR.1.length = Q0.length := hQlen
    rw [hnil] at h2
    rw [hQ0] at h2
    simp at h2
    unfold Poly.Degree at h2
    omega

theorem Poly.eq_of {f g : Poly} (h1 : f.p = g.p) (h2 : f.a = g.a) : f = g := by
  cases f; cases g
  cases h1; cases h2
  rfl

/-- C2: for every well-formed polynomial A and non-zero well-formed divisor
d over the same prime modulus, DivMod returns a pair (Q, R) with
Q*d + R == A (computed with the code's own multiplication and addition),
R zero or of smaller degree than d, and both outputs normalized
(fixed points of Normalize). -/
theorem claim_C2_divmod_correct {A d : Poly} (hprime : A.p.Prime) (hA : A.WF) (hd : d.WF)
    (hpp : d.p = A.p) (hdz : d.a ≠ [0]) :
    ∃ Q R : Poly,
      Poly.DivMod A d = .ok (Q, R) ∧
      Poly.add (Poly.mul Q d) R = A ∧
      (R.a = [0] ∨ R.Degree < d.Degree) ∧
      Normalize A.p Q.a = Q.a ∧ Normalize A.p R.a = R.a := by
  have hp : 0 < A.p := hprime.pos
  obtain ⟨Q, R, hDM, hQp, hRp, heq, hRwf, hRdich, hQfix, hRfix, hQr, -⟩ :=
    DivMod_spec hprime hA hd hpp hdz
  refine ⟨Q, R, hDM, ?_, ?_, hQfix, hRfix⟩
  · -- Q*d + R == A via toP-injectivity
    have hMp : (Poly.mul Q d).p = A.p := hQp
    have hM : toP A.p (Poly.mul Q d).a = toP A.p Q.a * toP A.p d.a := by
      have := toP_mul Q d
      rw [hQp] at this
      exact this
    have hS : toP A.p (Poly.add (Poly.mul Q d) R).a =
        toP A.p (Poly.mul Q d).a + toP A.p R.a := by
      have := toP_add (Poly.mul Q d) R
      rw [hMp] at this
      exact this
    have hSA : toP A.p (Poly.add (Poly.mul Q d) R).a = toP A.p A.a := by
      rw [hS, hM, heq]
    have hSwf : WFa A.p (Poly.add (Poly.mul Q d) R).a := by
      show WFa A.p (Normalize (Poly.mul Q d).p
        (addVecs (Poly.mul Q d).p (padTo (Poly.mul Q d).a R.a.length) R.a))
      rw [hMp]
      apply Normalize_WF hp
      intro hnil
      have h1 : R.a.length ≤ (padTo (Poly.mul Q d).a R.a.length).length := by
        rw [padTo_length]; omega
      have h2 := addVecs_length A.p R.a _ h1
      rw [hnil] at h2
      rw [padTo_length] at h2
      have h3 : 0 < R.a.length := List.length_pos.mpr hRwf.1
      simp at h2
      omega
    have hAa : (Poly.add (Poly.mul Q d) R).a = A.a := toP_inj hSwf hA hSA
    exact Poly.eq_of (by rw [show (Poly.add (Poly.mul Q d) R).p = (Poly.mul Q d).p from rfl,
      hMp]) hAa
  · rcases hRdich with h | h
    · exact Or.inl h
    · right
      unfold Poly.Degree
      omega

/-- Witness for C2 at the spec's own concrete scenario:
A = x^3 + 1, d = x + 1 over GF(5). -/
theorem claim_C2_divmod_correct_witness :
    ∃ Q R : Poly,
      Poly.DivMod (Poly.ofList [1, 0, 0, 1] 5) (Poly.ofList [1, 1] 5) = .ok (Q, R) ∧
      Poly.add (Poly.mul Q (Poly.ofList [1, 1] 5)) R = Poly.ofList [1, 0, 0, 1] 5 ∧
      (R.a = [0] ∨ R.Degree < (Poly.ofList [1, 1] 5).Degree) ∧
      Normalize (Poly.ofList [1, 0, 0, 1] 5).p Q.a = Q.a ∧
      Normalize (Poly.ofList [1, 0, 0, 1] 5).p R.a = R.a :=
  claim_C2_divmod_correct (by decide) (by decide) (by decide) (by decide) (by decide)

/-! ### Well-formedness of arithmetic results -/

theorem add_WF {f t : Poly} (hp : 0 < f.p) (hf : f.a ≠ []) (ht : t.a ≠ []) :
    (Poly.add f t).WF := by
  show WFa f.p (Normalize f.p (addVecs f.p (padTo f.a t.a.length) t.a))
  apply Normalize_WF hp
  intro hnil
  have h1 : t.a.length ≤ (padTo f.a t.a.length).length := by rw [padTo_length]; omega
  have h2 := addVecs_length f.p t.a _ h1
  rw [hnil, padTo_length] at h2
  have h3 : 0 < f.a.length := List.length_pos.mpr hf
  simp at h2
  omega

theorem sub_WF {f t : Poly} (hp : 0 < f.p) (hf : f.a ≠ []) (ht : t.a ≠ []) :
    (Poly.sub f t).WF := by
  show WFa f.p (Normalize f.p (subVecs f.p (padTo f.a t.a.length) t.a))
  apply Normalize_WF hp
  intro hnil
  have h1 : t.a.length ≤ (padTo f.a t.a.length).length := by rw [padTo_length]; omega
  have h2 := subVecs_length f.p t.a _ h1
  rw [hnil, padTo_length] at h2
  have h3 : 0 < f.a.length := List.length_pos.mpr hf
  simp at h2
  omega

theorem mul_WF {f t : Poly} (hp : 0 < f.p) (hf : f.a ≠ []) (ht : t.a ≠ []) :
    (Poly.mul f t).WF := by
  show WFa f.p (Normalize f.p
    (mulOuter f.p f.a 0 t.a (List.replicate (f.a.length + t.a.length - 1) 0)))
  apply Normalize_WF hp
  intro hnil
  have h2 := mulOuter_length f.p f.a 0 t.a (List.replicate (f.a.length + t.a.length - 1) 0)
  rw [hnil] at h2
  have h3 : 0 < f.a.length := List.length_pos.mpr hf
  have h4 : 0 < t.a.length := List.length_pos.mpr ht
  simp at h2
  omega

/-- Strict decrease of mathematical degree from one division step: the
degree of the remainder is strictly below the divisor's degree. -/
theorem degree_R_lt_degree_d {p : ℕ} {d R : List Int} (hd : WFa p d) (hdz : d ≠ [0])
    (hR : WFa p R) (hdich : R = [0] ∨ R.length < d.length) :
    (toP p R).degree < (toP p d).degree := by
  have hdd := toP_natDegree_WF hd hdz
  have hbot : (⊥ : WithBot ℕ) < (toP p d).degree := by
    apply bot_lt_iff_ne_bot.mpr
    rw [Ne, Polynomial.degree_eq_bot]
    exact hdd.2
  rcases hdich with h0 | hlt
  · rw [h0]
    simpa using hbot
  · by_cases h0 : R = [0]
    · rw [h0]
      simpa using hbot
    · have hRR := toP_natDegree_WF hR h0
      rw [Polynomial.degree_eq_natDegree hRR.2, Polynomial.degree_eq_natDegree hdd.2]
      rw [hRR.1, hdd.1]
      have h1 : 0 < R.length := List.length_pos.mpr hR.1
      exact_mod_cast (by omega : R.length - 1 < d.length - 1)

/-! ### Specification of GCD -/

theorem gcdLoop_succ (fuel : ℕ) (A B : Poly) :
    gcdLoop (fuel + 1) A B =
      if B.a.length = 1 ∧ B.a.headD 0 = 0 then .ok ⟨A.p, Normalize A.p A.a⟩
      else (do
        let QR ← Poly.DivMod A B
        gcdLoop fuel B QR.2) := rfl

theorem gcdLoop_spec {p : ℕ} (hprime : p.Prime) :
    ∀ (fuel : ℕ) (A B : Poly), B.a.length + 2 ≤ fuel →
      A.p = p → B.p = p → A.WF → B.WF →
      ∃ G : Poly, gcdLoop fuel A B = .ok G ∧ G.p = p ∧ G.WF ∧
        toP p G.a ∣ toP p A.a ∧ toP p G.a ∣ toP p B.a ∧
        ∀ e : Polynomial (ZMod p), e ∣ toP p A.a → e ∣ toP p B.a → e ∣ toP p G.a := by
  intro fuel
  induction fuel with
  | zero => intro A B hf _ _ _ _; omega
  | succ fuel ih =>
      intro A B hfuel hAp hBp hA hB
      subst hAp
      by_cases hz : B.a.length = 1 ∧ B.a.headD 0 = 0
      · rw [gcdLoop_succ, if_pos hz]
        have hBz : B.a = [0] := (zeroRep_iff B.a).mp hz
        have hfix : Normalize A.p A.a = A.a := Normalize_fix hA
        refine ⟨⟨A.p, Normalize A.p A.a⟩, rfl, rfl, ?_, ?_, ?_, ?_⟩
        · show WFa A.p (Normalize A.p A.a)
          rw [hfix]; exact hA
        · show toP A.p (Normalize A.p A.a) ∣ toP A.p A.a
          rw [hfix]
        · show toP A.p (Normalize A.p A.a) ∣ toP A.p B.a
          rw [hfix, hBz]
          simp
        · intro e he1 _
          show e ∣ toP A.p (Normalize A.p A.a)
          rw [hfix]; exact he1
      · have hBz : B.a ≠ [0] := fun h => hz (by rw [h]; exact ⟨rfl, rfl⟩)
        have hBlen : 0 < B.a.length := List.length_pos.mpr hB.1
        obtain ⟨Q, R, hDM, hQp, hRp, heq, hRwf, hRdich, -, -, -, -⟩ :=
          DivMod_spec hprime hA hB hBp hBz
        rw [gcdLoop_succ, if_neg hz, hDM]
        have hRwf' : R.WF := hRwf
        rcases hRdich with hR0 | hRlt
        · -- remainder is the zero representation: one more step ends the loop
          have hfuelpos : ∃ fuel2, fuel = fuel2 + 1 := by
            refine ⟨fuel - 1, ?_⟩
            omega
          obtain ⟨fuel2, rfl⟩ := hfuelpos
          have hstop : gcdLoop (fuel2 + 1) B R = .ok ⟨B.p, Normalize B.p B.a⟩ := by
            rw [gcdLoop_succ, if_pos]
            rw [hR0]
            exact ⟨rfl, rfl⟩
          have hBfix : Normalize B.p B.a = B.a := Normalize_fix hB
          have hR0' : toP A.p R.a = 0 := by rw [hR0]; simp
          have hBA : toP A.p B.a ∣ toP A.p A.a := by
            refine ⟨toP A.p Q.a, ?_⟩
            rw [← heq, hR0']
            ring
          refine ⟨⟨B.p, Normalize B.p B.a⟩, ?_, by rw [hBfix] at hstop ⊢; exact hBp, ?_, ?_, ?_, ?_⟩
          · exact hstop
          · show WFa B.p (Normalize B.p B.a)
            rw [hBfix]
            exact hB
          · show toP A.p (Normalize B.p B.a) ∣ toP A.p A.a
            rw [hBfix]
            exact hBA
          · show toP A.p (Normalize B.p B.a) ∣ toP A.p B.a
            rw [hBfix]
          · intro e _ he2
            show e ∣ toP A.p (Normalize B.p B.a)
            rw [hBfix]
            exact he2
        · have hrec := ih B R (by omega) hBp (by rw [hRp]) hB (by exact hRwf)
          obtain ⟨G, hG, hGp, hGwf, hGB, hGR, hGgreat⟩ := hrec
          refine ⟨G, hG, hGp, hGwf, ?_, hGB, ?_⟩
          · -- G divides A = Q*B + R
            have h1 : toP A.p A.a = toP A.p Q.a * toP A.p B.a + toP A.p R.a := heq.symm
            rw [h1]
            exact dvd_add (Dvd.dvd.mul_left hGB _) hGR
          · intro e he1 he2
            apply hGgreat e he2
            have h1 : toP A.p R.a = toP A.p A.a - toP A.p Q.a * toP A.p B.a := by
              rw [← heq]; ring
            rw [h1]
            exact dvd_sub he1 (Dvd.dvd.mul_left he2 _)

/-- Full specification of Poly::GCD: returns a well-formed polynomial
that is a greatest common divisor (in the divisibility sense) of the
two inputs. -/
theorem GCD_spec {A B : Poly} (hprime : A.p.Prime) (hA : A.WF) (hB : B.WF)
    (hBp : B.p = A.p) :
    ∃ G : Poly, Poly.GCD A B = .ok G ∧ G.p = A.p ∧ G.WF ∧
      toP A.p G.a ∣ toP A.p A.a ∧ toP A.p G.a ∣ toP A.p B.a ∧
      ∀ e : Polynomial (ZMod A.p), e ∣ toP A.p A.a → e ∣ toP A.p B.a → e ∣ toP A.p G.a :=
  gcdLoop_spec hprime (B.a.length + 2) A B le_rfl rfl hBp hA hB

/-! ### Specification of PowX -/

theorem powXLoop_spec {f : Poly} (hprime : f.p.Prime) (hf : f.WF) (hfdeg : 2 ≤ f.a.length) :
    ∀ (fuel k : ℕ) (r res : Poly), k < fuel →
      r.p = f.p → res.p = f.p → r.WF → res.WF → res.a.length < f.a.length →
      ∃ out : Poly, powXLoop f fuel k r res = .ok out ∧ out.p = f.p ∧ out.WF ∧
        out.a.length < f.a.length ∧
        toP f.p f.a ∣ toP f.p res.a * toP f.p r.a ^ k - toP f.p out.a := by
  have hp : 0 < f.p := hprime.pos
  have hfz : f.a ≠ [0] := by
    intro h
    rw [h] at hfdeg
    simp at hfdeg
  intro fuel
  induction fuel with
  | zero => intro k r res hk _ _ _ _ _; omega
  | succ fuel ih =>
      intro k r res hk hrp hresp hr hres hreslen
      by_cases hk0 : k = 0
      · subst hk0
        refine ⟨res, ?_, hresp, hres, hreslen, by simp⟩
        rw [powXLoop, if_pos rfl]
      · -- the square step (always executed)
        have hmulrr : (Poly.mul r r).p = f.p := hrp
        have hmulrrWF : (Poly.mul r r).WF := mul_WF (by rw [hrp]; exact hp) hr.1 hr.1
        obtain ⟨q2, R2, hDM2, hq2p, hR2p, heq2, hR2wf, hR2dich, -, -, -, -⟩ :=
          DivMod_spec (by rw [hmulrr]; exact hprime) hmulrrWF hf (by rw [hmulrr]) hfz
        have hR2len : R2.a.length < f.a.length := by
          rcases hR2dich with h | h
          · rw [h]; simp; omega
          · exact h
        have hR2dvd : toP f.p f.a ∣ toP f.p r.a * toP f.p r.a - toP f.p R2.a := by
          have hMrr : toP f.p (Poly.mul r r).a = toP f.p r.a * toP f.p r.a := by
            have h := toP_mul r r
            rw [hrp] at h
            exact h
          rw [hmulrr, hMrr] at heq2
          exact ⟨toP f.p q2.a, by linear_combination -heq2⟩
        by_cases hodd : k % 2 = 1
        · -- odd: res becomes (res*r) mod f
          have hmulresr : (Poly.mul res r).p = f.p := hresp
          have hmulresrWF : (Poly.mul res r).WF :=
            mul_WF (by rw [hresp]; exact hp) hres.1 hr.1
          obtain ⟨q1, R1, hDM1, hq1p, hR1p, heq1, hR1wf, hR1dich, -, -, -, -⟩ :=
            DivMod_spec (by rw [hmulresr]; exact hprime) hmulresrWF hf (by rw [hmulresr]) hfz
          have hR1len : R1.a.length < f.a.length := by
            rcases hR1dich with h | h
            · rw [h]; simp; omega
            · exact h
          have hR1dvd : toP f.p f.a ∣ toP f.p res.a * toP f.p r.a - toP f.p R1.a := by
            have hMresr : toP f.p (Poly.mul res r).a = toP f.p res.a * toP f.p r.a := by
              have h := toP_mul res r
              rw [hresp] at h
              exact h
            rw [hmulresr, hMresr] at heq1
            exact ⟨toP f.p q1.a, by linear_combination -heq1⟩
          have hstep : powXLoop f (fuel + 1) k r res = powXLoop f fuel (k / 2) R2 R1 := by
            rw [powXLoop, if_neg hk0, if_pos hodd, hDM1, hDM2]
            rfl
          rw [hstep]
          have hrec := ih (k / 2) R2 R1 (by omega) (hR2p.trans hmulrr)
            (hR1p.trans hmulresr) hR2wf hR1wf hR1len
          obtain ⟨out, hout, houtp, houtwf, houtlen, houtdvd⟩ := hrec
          refine ⟨out, hout, houtp, houtwf, houtlen, ?_⟩
          obtain ⟨u, hu⟩ := hR1dvd
          obtain ⟨v, hv⟩ := hR2dvd
          obtain ⟨w, hw⟩ := houtdvd
          obtain ⟨z, hz⟩ := sub_dvd_pow_sub_pow (toP f.p r.a * toP f.p r.a)
            (toP f.p R2.a) (k / 2)
          set m := k / 2 with hm
          refine ⟨u * (toP f.p r.a * toP f.p r.a) ^ m + toP f.p R1.a * z * v + w, ?_⟩
          have hkk : k = 2 * m + 1 := by omega
          rw [hkk]
          have hpow : toP f.p r.a ^ (2 * m + 1) =
              toP f.p r.a * (toP f.p r.a * toP f.p r.a) ^ m := by
            rw [pow_succ, pow_mul]
            ring
          rw [hpow]
          linear_combination ((toP f.p r.a * toP f.p r.a) ^ m) * hu +
            (toP f.p R1.a * z) * hv + toP f.p R1.a * hz + hw
        · -- even: res is unchanged
          have hstep : powXLoop f (fuel + 1) k r res = powXLoop f fuel (k / 2) R2 res := by
            rw [powXLoop, if_neg hk0, if_neg hodd, hDM2]
            rfl
          rw [hstep]
          have hrec := ih (k / 2) R2 res (by omega) (hR2p.trans hmulrr) hresp hR2wf hres
            hreslen
          obtain ⟨out, hout, houtp, houtwf, houtlen, houtdvd⟩ := hrec
          refine ⟨out, hout, houtp, houtwf, houtlen, ?_⟩
          obtain ⟨v, hv⟩ := hR2dvd
          obtain ⟨w, hw⟩ := houtdvd
          obtain ⟨z, hz⟩ := sub_dvd_pow_sub_pow (toP f.p r.a * toP f.p r.a)
            (toP f.p R2.a) (k / 2)
          set m := k / 2 with hm
          refine ⟨toP f.p res.a * z * v + w, ?_⟩
          have hkk : k = 2 * m := by omega
          rw [hkk]
          have hpow : toP f.p r.a ^ (2 * m) =
              (toP f.p r.a * toP f.p r.a) ^ m := by
            rw [pow_mul]
            ring
          rw [hpow]
          linear_combination (toP f.p res.a * z) * hv + toP f.p res.a * hz + hw

/-- Full specification of Poly::PowX: for a well-formed modulus polynomial
of degree at least 1 over a prime modulus, PowX k f returns a well-formed
reduced representative of x^k modulo f. -/
theorem PowX_spec {f : Poly} (hprime : f.p.Prime) (hf : f.WF) (hfdeg : 2 ≤ f.a.length)
    (k : ℕ) :
    ∃ out : Poly, Poly.PowX k f = .ok out ∧ out.p = f.p ∧ out.WF ∧
      out.a.length < f.a.length ∧
      toP f.p f.a ∣ Polynomial.X ^ k - toP f.p out.a := by
  have hp : 0 < f.p := hprime.pos
  have hp2 : 2 ≤ f.p := hprime.two_le
  have hxwf : (Poly.ofList [0, 1] f.p).WF := ofList_WF hp (by simp)
  have honewf : (Poly.ofList [1] f.p).WF := ofList_WF hp (by simp)
  have hxa : (Poly.ofList [0, 1] f.p).a = [0, 1] := by
    show Normalize f.p [0, 1] = [0, 1]
    apply Normalize_fix
    refine ⟨by simp, ?_, Or.inl (by simp)⟩
    intro x hx
    simp at hx
    rcases hx with h | h <;> rw [h] <;> constructor <;> omega
  have honea : (Poly.ofList [1] f.p).a = [1] := by
    show Normalize f.p [1] = [1]
    apply Normalize_fix
    refine ⟨by simp, ?_, Or.inl (by simp)⟩
    intro x hx
    simp at hx
    rw [hx]
    constructor <;> omega
  obtain ⟨out, hout, houtp, houtwf, houtlen, houtdvd⟩ :=
    powXLoop_spec hprime hf hfdeg (k + 1) k (Poly.ofList [0, 1] f.p) (Poly.ofList [1] f.p)
      (by omega) rfl rfl hxwf honewf (by rw [honea]; simpa using hfdeg)
  refine ⟨out, hout, houtp, houtwf, houtlen, ?_⟩
  have hone : toP f.p (Poly.ofList [1] f.p).a = 1 := by
    rw [honea]
    simp [toP_cons]
  have hx : toP f.p (Poly.ofList [0, 1] f.p).a = Polynomial.X := by
    rw [hxa]
    simp [toP_cons]
  rw [hone, hx, one_mul] at houtdvd
  exact houtdvd

/-! ### Claim C6: additivity of PowX exponents -/

/-- C6: for all non-negative k1, k2 and a well-formed modulus polynomial f
of degree at least 1 over a prime modulus, PowX(k1+k2, f) equals the
remainder of DivMod(PowX(k1, f) * PowX(k2, f), f). -/
theorem claim_C6_powx_additive {f : Poly} (hprime : f.p.Prime) (hf : f.WF)
    (hdeg : 1 ≤ f.Degree) (k1 k2 : ℕ) :
    ∃ r12 r1 r2 q rem : Poly,
      Poly.PowX (k1 + k2) f = .ok r12 ∧
      Poly.PowX k1 f = .ok r1 ∧
      Poly.PowX k2 f = .ok r2 ∧
      Poly.DivMod (Poly.mul r1 r2) f = .ok (q, rem) ∧
      r12 = rem := by
  haveI : Fact f.p.Prime := ⟨hprime⟩
  have hp : 0 < f.p := hprime.pos
  have hflen : 2 ≤ f.a.length := by
    unfold Poly.Degree at hdeg
    omega
  have hfz : f.a ≠ [0] := by
    intro h
    rw [h] at hflen
    simp at hflen
  obtain ⟨r12, h12, h12p, h12wf, h12len, h12dvd⟩ := PowX_spec hprime hf hflen (k1 + k2)
  obtain ⟨r1, h1, h1p, h1wf, h1len, h1dvd⟩ := PowX_spec hprime hf hflen k1
  obtain ⟨r2, h2, h2p, h2wf, h2len, h2dvd⟩ := PowX_spec hprime hf hflen k2
  have hmulp : (Poly.mul r1 r2).p = f.p := h1p
  have hmulwf : (Poly.mul r1 r2).WF := mul_WF (by rw [h1p]; exact hp) h1wf.1 h2wf.1
  obtain ⟨q, rem, hDM, hqp, hremp, heq, hremwf, hremdich, -, -, -, -⟩ :=
    DivMod_spec (by rw [hmulp]; exact hprime) hmulwf hf (by rw [hmulp]) hfz
  refine ⟨r12, r1, r2, q, rem, h12, h1, h2, hDM, ?_⟩
  have hremlen : rem.a.length < f.a.length := by
    rcases hremdich with h | h
    · rw [h]; simp; omega
    · exact h
  -- both rem and r12 are reduced representatives of X^(k1+k2) mod f
  have hMr : toP f.p (Poly.mul r1 r2).a = toP f.p r1.a * toP f.p r2.a := by
    have h := toP_mul r1 r2
    rw [h1p] at h
    exact h
  rw [hmulp, hMr] at heq
  have hdvd : toP f.p f.a ∣ toP f.p rem.a - toP f.p r12.a := by
    obtain ⟨u, hu⟩ := h12dvd
    obtain ⟨v, hv⟩ := h1dvd
    obtain ⟨w, hw⟩ := h2dvd
    have hpow : (Polynomial.X : Polynomial (ZMod f.p)) ^ (k1 + k2) =
        Polynomial.X ^ k1 * Polynomial.X ^ k2 := pow_add _ _ _
    rw [hpow] at hu
    refine ⟨u - w * Polynomial.X ^ k1 - v * Polynomial.X ^ k2 +
      toP f.p f.a * v * w - toP f.p q.a, ?_⟩
    linear_combination heq + hu + (-(toP f.p r2.a)) * hv +
      (toP f.p f.a * v - Polynomial.X ^ k1) * hw
  have hzero : toP f.p rem.a - toP f.p r12.a = 0 := by
    by_contra hne
    have hFdeg := toP_natDegree_WF (show WFa f.p f.a from hf) hfz
    have hdegF : (toP f.p f.a).degree ≤ (toP f.p rem.a - toP f.p r12.a).degree :=
      Polynomial.degree_le_of_dvd hdvd hne
    have hb1 : (toP f.p rem.a).degree < ((f.a.length - 1 : ℕ) : WithBot ℕ) := by
      have := toP_degree_lt f.p rem.a
      calc (toP f.p rem.a).degree < (rem.a.length : WithBot ℕ) := this
        _ ≤ ((f.a.length - 1 : ℕ) : WithBot ℕ) := by
            exact_mod_cast (by omega : rem.a.length ≤ f.a.length - 1)
    have hb2 : (toP f.p r12.a).degree < ((f.a.length - 1 : ℕ) : WithBot ℕ) := by
      have := toP_degree_lt f.p r12.a
      calc (toP f.p r12.a).degree < (r12.a.length : WithBot ℕ) := this
        _ ≤ ((f.a.length - 1 : ℕ) : WithBot ℕ) := by
            exact_mod_cast (by omega : r12.a.length ≤ f.a.length - 1)
    have hsub : (toP f.p rem.a - toP f.p r12.a).degree < ((f.a.length - 1 : ℕ) : WithBot ℕ) :=
      lt_of_le_of_lt (Polynomial.degree_sub_le _ _) (max_lt hb1 hb2)
    rw [Polynomial.degree_eq_natDegree hFdeg.2, hFdeg.1] at hdegF
    exact absurd (lt_of_le_of_lt hdegF hsub) (lt_irrefl _)
  have htoPeq : toP f.p r12.a = toP f.p rem.a := by
    have := sub_eq_zero.mp hzero
    exact this.symm
  have hremp2 : rem.p = f.p := hremp.trans hmulp
  have hwf12 : WFa f.p r12.a := h12p ▸ h12wf
  have hwfrem : WFa f.p rem.a := hremp2 ▸ hremwf
  exact Poly.eq_of (h12p.trans hremp2.symm) (toP_inj hwf12 hwfrem htoPeq)

/-- Witness for C6 at f = x^2 + x + 1 over GF(2), k1 = 2, k2 = 3. -/
theorem claim_C6_powx_additive_witness :
    ∃ r12 r1 r2 q rem : Poly,
      Poly.PowX (2 + 3) (Poly.ofList [1, 1, 1] 2) = .ok r12 ∧
      Poly.PowX 2 (Poly.ofList [1, 1, 1] 2) = .ok r1 ∧
      Poly.PowX 3 (Poly.ofList [1, 1, 1] 2) = .ok r2 ∧
      Poly.DivMod (Poly.mul r1 r2) (Poly.ofList [1, 1, 1] 2) = .ok (q, rem) ∧
      r12 = rem :=
  claim_C6_powx_additive (by decide) (by decide) (by decide) 2 3

/-! ### Claim C3: the data-model invariants -/

/-- C3 counterexample: DivMod of the constant 1 by x over GF(2) returns a
quotient whose coefficient vector is empty, violating the invariant that
the coefficient sequence is never empty. -/
theorem claim_C3_counterexample :
    Poly.DivMod (Poly.ofList [1] 2) (Poly.ofList [0, 1] 2) =
      .ok (⟨2, []⟩, ⟨2, [1]⟩) ∧ (⟨2, []⟩ : Poly).a = [] := by
  exact ⟨by decide, rfl⟩

/-- C3 (amended): every Polynomial returned by a public operation satisfies
the three data-model invariants, with two exceptions: construction from an
empty raw sequence, and the quotient component of DivMod when the
dividend's degree is smaller than the divisor's (both yield an empty
coefficient sequence). Conjuncts: construction, add, sub, mul, DivMod
(remainder always, quotient when Degree d <= Degree A), GCD, PowX. -/
theorem claim_C3_invariants_amended :
    (∀ (v : List Int) (p : ℕ), 0 < p → v ≠ [] → (Poly.ofList v p).WF) ∧
    (∀ f t : Poly, f.WF → t.WF →
      (Poly.add f t).WF ∧ (Poly.sub f t).WF ∧ (Poly.mul f t).WF) ∧
    (∀ A d : Poly, A.p.Prime → A.WF → d.WF → d.p = A.p → d.a ≠ [0] →
      ∃ Q R : Poly, Poly.DivMod A d = .ok (Q, R) ∧ R.WF ∧
        (d.Degree ≤ A.Degree → Q.WF)) ∧
    (∀ A B : Poly, A.p.Prime → A.WF → B.WF → B.p = A.p →
      ∃ G : Poly, Poly.GCD A B = .ok G ∧ G.WF) ∧
    (∀ (k : ℕ) (f : Poly), f.p.Prime → f.WF → 1 ≤ f.Degree →
      ∃ out : Poly, Poly.PowX k f = .ok out ∧ out.WF) := by
  refine ⟨?_, ?_, ?_, ?_, ?_⟩
  · intro v p hp hv
    exact ofList_WF hp hv
  · intro f t hf ht
    have hp : 0 < f.p := WFa_pos hf
    exact ⟨add_WF hp hf.1 ht.1, sub_WF hp hf.1 ht.1, mul_WF hp hf.1 ht.1⟩
  · intro A d hprime hA hd hpp hdz
    obtain ⟨Q, R, hDM, -, -, -, hRwf, -, -, -, -, hQwf⟩ := DivMod_spec hprime hA hd hpp hdz
    refine ⟨Q, R, hDM, hRwf, ?_⟩
    intro hdeg
    apply hQwf
    unfold Poly.Degree at hdeg
    omega
  · intro A B hprime hA hB hBp
    obtain ⟨G, hG, -, hGwf, -, -, -⟩ := GCD_spec hprime hA hB hBp
    exact ⟨G, hG, hGwf⟩
  · intro k f hprime hf hdeg
    have hflen : 2 ≤ f.a.length := by
      unfold Poly.Degree at hdeg
      omega
    obtain ⟨out, hout, -, houtwf, -, -⟩ := PowX_spec hprime hf hflen k
    exact ⟨out, hout, houtwf⟩

/-- Witness for the amended C3 at concrete inputs over GF(2) and GF(5). -/
theorem claim_C3_invariants_amended_witness :
    (Poly.ofList [3, 7] 5).WF ∧
    ((Poly.add (Poly.ofList [1, 1] 2) (Poly.ofList [1] 2)).WF ∧
      (Poly.sub (Poly.ofList [1, 1] 2) (Poly.ofList [1] 2)).WF ∧
      (Poly.mul (Poly.ofList [1, 1] 2) (Poly.ofList [1] 2)).WF) ∧
    (∃ Q R : Poly,
      Poly.DivMod (Poly.ofList [1, 0, 0, 1] 5) (Poly.ofList [1, 1] 5) = .ok (Q, R) ∧
      R.WF ∧ ((Poly.ofList [1, 1] 5).Degree ≤ (Poly.ofList [1, 0, 0, 1] 5).Degree → Q.WF)) ∧
    (∃ G : Poly, Poly.GCD (Poly.ofList [1, 0, 1] 2) (Poly.ofList [1, 1] 2) = .ok G ∧ G.WF) ∧
    (∃ out : Poly, Poly.PowX 4 (Poly.ofList [1, 1, 1] 2) = .ok out ∧ out.WF) :=
  ⟨claim_C3_invariants_amended.1 [3, 7] 5 (by decide) (by decide),
   claim_C3_invariants_amended.2.1 (Poly.ofList [1, 1] 2) (Poly.ofList [1] 2)
     (by decide) (by decide),
   claim_C3_invariants_amended.2.2.1 (Poly.ofList [1, 0, 0, 1] 5) (Poly.ofList [1, 1] 5)
     (by decide) (by decide) (by decide) (by decide) (by decide),
   claim_C3_invariants_amended.2.2.2.1 (Poly.ofList [1, 0, 1] 2) (Poly.ofList [1, 1] 2)
     (by decide) (by decide) (by decide) (by decide),
   claim_C3_invariants_amended.2.2.2.2 4 (Poly.ofList [1, 1, 1] 2)
     (by decide) (by decide) (by decide)⟩

/-! ### Claim C10: degree-1 polynomials are rejected -/

theorem ofList_x_eval {p : ℕ} (hp : 2 ≤ p) : (Poly.ofList [0, 1] p).a = [0, 1] := by
  show Normalize p [0, 1] = [0, 1]
  apply Normalize_fix
  refine ⟨by simp, ?_, Or.inl (by simp)⟩
  intro x hx
  simp at hx
  rcases hx with h | h <;> rw [h] <;> constructor <;> omega

theorem Normalize_pair {p : ℕ} (a b : Int) (hb : b.tmod p ≠ 0) :
    Normalize p [a, b] = [normCoeff p a, normCoeff p b] := by
  show ((stripRev p [a, b].reverse).reverse).map (normCoeff p) = _
  have h1 : [a, b].reverse = [b, a] := rfl
  rw [h1]
  show ((if b.tmod p = 0 then stripRev p [a] else [b, a]).reverse).map (normCoeff p) = _
  rw [if_neg hb]
  rfl

/-- C10: for every well-formed polynomial f of degree exactly 1 over a
prime modulus, IsIrreducible returns false: PowX(p^1, f) is a remainder of
degree 0, and subtracting the unreduced degree-1 polynomial x from it
leaves a polynomial of degree 1, never the zero representation, so the
x^(p^n)-test rejects f. -/
theorem claim_C10_degree_one_rejected {f : Poly} (hprime : f.p.Prime) (hf : f.WF)
    (hdeg : f.Degree = 1) : Poly.IsIrreducible f = .ok false := by
  have hp2 : 2 ≤ f.p := hprime.two_le
  have hflen : f.a.length = 2 := by
    unfold Poly.Degree at hdeg
    omega
  obtain ⟨out, hPowX, houtp, houtwf, houtlen, -⟩ :=
    PowX_spec hprime hf (by omega) (PowInt f.p f.Degree.toNat)
  have houtne : out.a ≠ [] := houtwf.1
  have houtlen1 : out.a.length = 1 := by
    have := List.length_pos.mpr houtne
    omega
  obtain ⟨c, hc⟩ : ∃ c, out.a = [c] := by
    cases hcase : out.a with
    | nil => exact absurd hcase houtne
    | cons c t =>
        cases t with
        | nil => exact ⟨c, rfl⟩
        | cons y t2 => rw [hcase] at houtlen1; simp at houtlen1
  -- the test polynomial (PowX result) - x has coefficient vector of length 2
  have hsub : (Poly.sub out (Poly.ofList [0, 1] f.p)).a =
      [normCoeff f.p ((c : ℤ) - 0 + (f.p : ℤ)), normCoeff f.p ((0 : ℤ) - 1 + (f.p : ℤ))] := by
    show Normalize out.p
      (subVecs out.p (padTo out.a (Poly.ofList [0, 1] f.p).a.length)
        (Poly.ofList [0, 1] f.p).a) = _
    rw [ofList_x_eval hp2, hc, houtp]
    show Normalize f.p [((c : ℤ) - 0 + (f.p : ℤ)).tmod (f.p : ℤ),
      ((0 : ℤ) - 1 + (f.p : ℤ)).tmod (f.p : ℤ)] = _
    have h1 : ((f.p : ℤ) - 1).tmod (f.p : ℤ) = (f.p : ℤ) - 1 :=
      Int.tmod_eq_of_lt (by omega) (by omega)
    have htop : (((0 : ℤ) - 1 + (f.p : ℤ)).tmod (f.p : ℤ)).tmod (f.p : ℤ) ≠ 0 := by
      have he : ((0 : ℤ) - 1 + (f.p : ℤ)) = (f.p : ℤ) - 1 := by ring
      rw [he, h1, h1]
      omega
    rw [Normalize_pair _ _ htop]
    have hpp : 0 < f.p := by omega
    unfold normCoeff
    rw [tmod_tmod hpp, tmod_tmod hpp]
  have hlen2 : (Poly.sub out (Poly.ofList [0, 1] f.p)).a.length = 2 := by
    rw [hsub]
    rfl
  have hcond : ¬((Poly.sub out (Poly.ofList [0, 1] f.p)).a.length = 1 ∧
      (Poly.sub out (Poly.ofList [0, 1] f.p)).a.headD 0 = 0) := by
    rintro ⟨h1, -⟩
    rw [hlen2] at h1
    exact absurd h1 (by omega)
  rw [Poly.IsIrreducible, if_neg (by omega : ¬ f.Degree ≤ 0)]
  show (do
    let xp ← Poly.PowX (PowInt f.p f.Degree.toNat) f
    let test : Poly := Poly.sub xp (Poly.ofList [0, 1] f.p)
    if ¬(test.a.length = 1 ∧ test.a.headD 0 = 0) then Except.ok false else irredDivLoop f f.p f.Degree.toNat (PrimeDivisors f.Degree.toNat) : Except PolyError Bool) = Except.ok false
  rw [hPowX]
  show (if ¬((Poly.sub out (Poly.ofList [0, 1] f.p)).a.length = 1 ∧
      (Poly.sub out (Poly.ofList [0, 1] f.p)).a.headD 0 = 0) then Except.ok false
    else irredDivLoop f f.p f.Degree.toNat (PrimeDivisors f.Degree.toNat)) = Except.ok false
  rw [if_pos hcond]

/-- Witness for C10 at f = x over GF(2). -/
theorem claim_C10_degree_one_rejected_witness :
    Poly.IsIrreducible (Poly.ofList [0, 1] 2) = .ok false :=
  claim_C10_degree_one_rejected (by decide) (by decide) (by decide)

/-! ### Claim C4: the concrete irreducibility scenarios -/

/-- C4: over GF(2), x^2 + x + 1 is reported irreducible and x^2 + 1 is
reported reducible. -/
theorem claim_C4_concrete_scenarios :
    Poly.IsIrreducible (Poly.ofList [1, 1, 1] 2) = .ok true ∧
    Poly.IsIrreducible (Poly.ofList [1, 0, 1] 2) = .ok false := by
  exact ⟨by decide, by decide⟩

/-! ### Claim C9: termination of the decision procedure -/

theorem irredDivLoop_total {f : Poly} (hprime : f.p.Prime) (hf : f.WF)
    (hflen : 2 ≤ f.a.length) (n : ℕ) :
    ∀ qs : List ℕ, ∃ b, irredDivLoop f f.p n qs = .ok b := by
  intro qs
  induction qs with
  | nil => exact ⟨true, rfl⟩
  | cons q qs ih =>
      have hp : 0 < f.p := hprime.pos
      obtain ⟨xp, hxp, hxpp, hxpwf, hxplen, -⟩ :=
        PowX_spec hprime hf hflen (PowInt f.p (n / q))
      have hhwf : (Poly.sub xp (Poly.ofList [0, 1] f.p)).WF :=
        sub_WF (by rw [hxpp]; exact hp) hxpwf.1 (Normalize_ne_nil _ _ (by simp))
      have hhp : (Poly.sub xp (Poly.ofList [0, 1] f.p)).p = f.p := hxpp
      obtain ⟨G, hG, hGp, -, -, -, -⟩ := GCD_spec hprime hf hhwf hhp
      obtain ⟨b2, hb2⟩ := ih
      show ∃ b, (do
        let xp2 ← Poly.PowX (PowInt f.p (n / q)) f
        let h := Poly.sub xp2 (Poly.ofList [0, 1] f.p)
        let g ← Poly.GCD f h
        if 0 < g.Degree then Except.ok false else irredDivLoop f f.p n qs :
          Except PolyError Bool) = .ok b
      rw [hxp]
      show ∃ b, (do
        let g ← Poly.GCD f (Poly.sub xp (Poly.ofList [0, 1] f.p))
        if 0 < g.Degree then Except.ok false else irredDivLoop f f.p n qs :
          Except PolyError Bool) = .ok b
      rw [hG]
      show ∃ b, (if 0 < G.Degree then Except.ok false else irredDivLoop f f.p n qs) = .ok b
      by_cases hG0 : 0 < G.Degree
      · exact ⟨false, by rw [if_pos hG0]⟩
      · exact ⟨b2, by rw [if_neg hG0]; exact hb2⟩

/-- C9: termination of the whole decision procedure. Conjuncts:
(1) the division loop always exits with a remainder of strictly smaller
degree than the divisor (mathematical degree, the zero polynomial having
degree bottom);
(2) hence each GCD iteration replaces the second argument by a polynomial
of strictly smaller degree;
(3) PowX terminates (the exponent is halved each step);
(4) IsIrreducible is a total function on well-formed inputs over a prime
modulus: it always returns a boolean verdict. -/
theorem claim_C9_termination :
    (∀ A d : Poly, A.p.Prime → A.WF → d.WF → d.p = A.p → d.a ≠ [0] →
      ∃ Q R : Poly, Poly.DivMod A d = .ok (Q, R) ∧
        (toP A.p R.a).degree < (toP A.p d.a).degree) ∧
    (∀ (fuel : ℕ) (A B : Poly), A.p.Prime → A.WF → B.WF → B.p = A.p → B.a ≠ [0] →
      ∃ Q R : Poly, Poly.DivMod A B = .ok (Q, R) ∧
        gcdLoop (fuel + 1) A B = gcdLoop fuel B R ∧
        (toP A.p R.a).degree < (toP A.p B.a).degree) ∧
    (∀ (k : ℕ) (f : Poly), f.p.Prime → f.WF → 1 ≤ f.Degree →
      ∃ out, Poly.PowX k f = .ok out) ∧
    (∀ f : Poly, f.p.Prime → f.WF → ∃ b, Poly.IsIrreducible f = .ok b) := by
  have key : ∀ A d : Poly, A.p.Prime → A.WF → d.WF → d.p = A.p → d.a ≠ [0] →
      ∃ Q R : Poly, Poly.DivMod A d = .ok (Q, R) ∧
        (toP A.p R.a).degree < (toP A.p d.a).degree := by
    intro A d hprime hA hd hpp hdz
    obtain ⟨Q, R, hDM, hQp, hRp, -, hRwf, hRdich, -, -, -, -⟩ :=
      DivMod_spec hprime hA hd hpp hdz
    refine ⟨Q, R, hDM, ?_⟩
    exact degree_R_lt_degree_d (hpp ▸ hd) hdz (hRp ▸ hRwf) hRdich
  refine ⟨key, ?_, ?_, ?_⟩
  · intro fuel A B hprime hA hB hBp hBz
    obtain ⟨Q, R, hDM, hdeg⟩ := key A B hprime hA hB hBp hBz
    refine ⟨Q, R, hDM, ?_, hdeg⟩
    rw [gcdLoop_succ, if_neg (fun h => hBz ((zeroRep_iff B.a).mp h)), hDM]
    rfl
  · intro k f hprime hf hdeg
    have hflen : 2 ≤ f.a.length := by
      unfold Poly.Degree at hdeg
      omega
    obtain ⟨out, hout, -, -, -, -⟩ := PowX_spec hprime hf hflen k
    exact ⟨out, hout⟩
  · intro f hprime hf
    by_cases hdeg : f.Degree ≤ 0
    · exact ⟨false, by rw [Poly.IsIrreducible, if_pos hdeg]⟩
    · have hflen : 2 ≤ f.a.length := by
        unfold Poly.Degree at hdeg
        omega
      obtain ⟨out, hPowX, houtp, houtwf, houtlen, -⟩ :=
        PowX_spec hprime hf hflen (PowInt f.p f.Degree.toNat)
      by_cases htest : ¬((Poly.sub out (Poly.ofList [0, 1] f.p)).a.length = 1 ∧
          (Poly.sub out (Poly.ofList [0, 1] f.p)).a.headD 0 = 0)
      · refine ⟨false, ?_⟩
        rw [Poly.IsIrreducible, if_neg hdeg]
        show (do
          let xp ← Poly.PowX (PowInt f.p f.Degree.toNat) f
          let test : Poly := Poly.sub xp (Poly.ofList [0, 1] f.p)
          if ¬(test.a.length = 1 ∧ test.a.headD 0 = 0) then Except.ok false else irredDivLoop f f.p f.Degree.toNat (PrimeDivisors f.Degree.toNat) : Except PolyError Bool) = Except.ok false
        rw [hPowX]
        show (if ¬((Poly.sub out (Poly.ofList [0, 1] f.p)).a.length = 1 ∧
            (Poly.sub out (Poly.ofList [0, 1] f.p)).a.headD 0 = 0) then Except.ok false
          else irredDivLoop f f.p f.Degree.toNat (PrimeDivisors f.Degree.toNat)) =
            Except.ok false
        rw [if_pos htest]
      · obtain ⟨b, hb⟩ := irredDivLoop_total hprime hf hflen f.Degree.toNat
          (PrimeDivisors f.Degree.toNat)
        refine ⟨b, ?_⟩
        rw [Poly.IsIrreducible, if_neg hdeg]
        show (do
          let xp ← Poly.PowX (PowInt f.p f.Degree.toNat) f
          let test : Poly := Poly.sub xp (Poly.ofList [0, 1] f.p)
          if ¬(test.a.length = 1 ∧ test.a.headD 0 = 0) then Except.ok false else irredDivLoop f f.p f.Degree.toNat (PrimeDivisors f.Degree.toNat) : Except PolyError Bool) = Except.ok b
        rw [hPowX]
        show (if ¬((Poly.sub out (Poly.ofList [0, 1] f.p)).a.length = 1 ∧
            (Poly.sub out (Poly.ofList [0, 1] f.p)).a.headD 0 = 0) then Except.ok false
          else irredDivLoop f f.p f.Degree.toNat (PrimeDivisors f.Degree.toNat)) =
            Except.ok b
        rw [if_neg htest]
        exact hb

/-- Witness for C9 at concrete inputs over GF(2) and GF(5). -/
theorem claim_C9_termination_witness :
    (∃ Q R : Poly, Poly.DivMod (Poly.ofList [1, 0, 0, 1] 5) (Poly.ofList [1, 1] 5) =
        .ok (Q, R) ∧
      (toP (Poly.ofList [1, 0, 0, 1] 5).p R.a).degree <
        (toP (Poly.ofList [1, 0, 0, 1] 5).p (Poly.ofList [1, 1] 5).a).degree) ∧
    (∃ Q R : Poly, Poly.DivMod (Poly.ofList [1, 0, 1] 2) (Poly.ofList [1, 1] 2) =
        .ok (Q, R) ∧
      gcdLoop (3 + 1) (Poly.ofList [1, 0, 1] 2) (Poly.ofList [1, 1] 2) =
        gcdLoop 3 (Poly.ofList [1, 1] 2) R ∧
      (toP (Poly.ofList [1, 0, 1] 2).p R.a).degree <
        (toP (Poly.ofList [1, 0, 1] 2).p (Poly.ofList [1, 1] 2).a).degree) ∧
    (∃ out, Poly.PowX 4 (Poly.ofList [1, 1, 1] 2) = .ok out) ∧
    (∃ b, Poly.IsIrreducible (Poly.ofList [1, 1, 1] 2) = .ok b) :=
  ⟨claim_C9_termination.1 (Poly.ofList [1, 0, 0, 1] 5) (Poly.ofList [1, 1] 5)
     (by decide) (by decide) (by decide) (by decide) (by decide),
   claim_C9_termination.2.1 3 (Poly.ofList [1, 0, 1] 2) (Poly.ofList [1, 1] 2)
     (by decide) (by decide) (by decide) (by decide) (by decide),
   claim_C9_termination.2.2.1 4 (Poly.ofList [1, 1, 1] 2) (by decide) (by decide) (by decide),
   claim_C9_termination.2.2.2 (Poly.ofList [1, 1, 1] 2) (by decide) (by decide)⟩

/-! ### Towards C1: PowInt, list-length bounds, and PrimeDivisors -/

theorem PowInt_eq (a b : ℕ) : PowInt a b = a ^ b := by
  induction b with
  | zero => rfl
  | succ b ih => rw [PowInt, ih, pow_succ]

theorem stripRev_length_le (p : ℕ) : ∀ l : List Int, (stripRev p l).length ≤ l.length := by
  intro l
  induction l with
  | nil => simp [stripRev]
  | cons x t ih =>
      cases t with
      | nil => simp [stripRev]
      | cons y t2 =>
          show (if x.tmod p = 0 then stripRev p (y :: t2) else x :: y :: t2).length ≤ _
          by_cases h : x.tmod p = 0
          · rw [if_pos h]
            exact le_trans ih (by simp)
          · rw [if_neg h]

theorem Normalize_length_le (p : ℕ) (l : List Int) :
    (Normalize p l).length ≤ l.length := by
  unfold Normalize
  rw [List.length_map, List.length_reverse]
  have := stripRev_length_le p l.reverse
  simpa using this

/-- If a proper divisor d of n is given, some prime q divides n with d
still dividing n / q. -/
theorem exists_prime_div_with_dvd {d n : ℕ} (hd : d ∣ n) (hlt : d < n) (hn : 1 ≤ n) :
    ∃ q, q.Prime ∧ q ∣ n ∧ d ∣ n / q := by
  obtain ⟨w, hw⟩ := hd
  have hw1 : 1 < w := by
    rcases Nat.lt_or_ge w 2 with h | h
    · interval_cases w <;> omega
    · omega
  obtain ⟨q, hq, hqw⟩ := Nat.exists_prime_and_dvd (show w ≠ 1 by omega)
  obtain ⟨t, ht⟩ := hqw
  refine ⟨q, hq, ⟨d * t, by rw [hw, ht]; ring⟩, ⟨t, ?_⟩⟩
  have hnq : n = d * t * q := by rw [hw, ht]; ring
  rw [hnq, Nat.mul_div_cancel _ hq.pos]

theorem stripFactor_spec :
    ∀ (fuel v i : ℕ), i.Prime → 1 ≤ v → v ≤ fuel →
      1 ≤ stripFactor fuel v i ∧ stripFactor fuel v i ∣ v ∧
      ¬ i ∣ stripFactor fuel v i ∧
      (∀ k, k.Prime → k ∣ v → k ≠ i → k ∣ stripFactor fuel v i) := by
  intro fuel
  induction fuel with
  | zero => intro v i _ hv hvf; omega
  | succ fuel ih =>
      intro v i hi hv hvf
      have hunf : stripFactor (fuel + 1) v i =
          if v % i = 0 then stripFactor fuel (v / i) i else v := rfl
      rw [hunf]
      by_cases hmod : v % i = 0
      · rw [if_pos hmod]
        have hdvd : i ∣ v := Nat.dvd_of_mod_eq_zero hmod
        have hiv : i ≤ v := Nat.le_of_dvd hv hdvd
        have hv2 : 1 ≤ v / i := (Nat.one_le_div_iff hi.pos).mpr hiv
        have hlt : v / i < v := Nat.div_lt_self hv hi.one_lt
        obtain ⟨h1, h2, h3, h4⟩ := ih (v / i) i hi hv2 (by omega)
        have hdvd2 : v / i ∣ v := ⟨i, (Nat.div_mul_cancel hdvd).symm⟩
        refine ⟨h1, h2.trans hdvd2, h3, ?_⟩
        intro k hk hkv hki
        apply h4 k hk ?_ hki
        have : k ∣ (v / i) * i := by rw [Nat.div_mul_cancel hdvd]; exact hkv
        rcases (Nat.Prime.dvd_mul hk).mp this with h | h
        · exact h
        · exact absurd ((Nat.prime_dvd_prime_iff_eq hk hi).mp h) hki
      · rw [if_neg hmod]
        exact ⟨hv, dvd_rfl, fun h => hmod (Nat.mod_eq_zero_of_dvd h),
          fun k _ hk _ => hk⟩

theorem primeDivLoop_spec :
    ∀ (fuel n i : ℕ) (acc : List ℕ), 2 ≤ i → 1 ≤ n → n + 1 ≤ i + fuel →
      (∀ k, k.Prime → k ∣ n → i ≤ k) →
      ∃ n2 acc2, primeDivLoop fuel n i acc = (n2, acc ++ acc2) ∧ 1 ≤ n2 ∧
        ∀ q, (q.Prime ∧ q ∣ n) ↔ (q ∈ acc2 ∨ (1 < n2 ∧ q = n2)) := by
  intro fuel
  induction fuel with
  | zero =>
      intro n i acc hi hn hnf hmin
      have hn1 : n = 1 := by
        by_contra h1
        obtain ⟨k, hk, hkd⟩ := Nat.exists_prime_and_dvd h1
        have := hmin k hk hkd
        have := Nat.le_of_dvd hn hkd
        omega
      subst hn1
      refine ⟨1, [], by simp [primeDivLoop], le_rfl, ?_⟩
      intro q
      constructor
      · rintro ⟨hq, hd⟩
        exact absurd (Nat.dvd_one.mp hd) hq.ne_one
      · rintro (h | ⟨h, -⟩)
        · simp at h
        · omega
  | succ fuel ih =>
      intro n i acc hi hn hnf hmin
      by_cases hguard : i * i ≤ n
      · by_cases hmod : n % i = 0
        · have hdvd : i ∣ n := Nat.dvd_of_mod_eq_zero hmod
          have hiprime : i.Prime := by
            obtain ⟨k, hk, hki⟩ := Nat.exists_prime_and_dvd (show i ≠ 1 by omega)
            have h1 : i ≤ k := hmin k hk (hki.trans hdvd)
            have h2 : k ≤ i := Nat.le_of_dvd (by omega) hki
            have : k = i := by omega
            exact this ▸ hk
          have hiv : i ≤ n := Nat.le_of_dvd hn hdvd
          have hv2 : 1 ≤ n / i := (Nat.one_le_div_iff hiprime.pos).mpr hiv
          have hvn : n / i < n := Nat.div_lt_self hn hiprime.one_lt
          obtain ⟨hm1, hmdvd, hmnot, hmkeep⟩ :=
            stripFactor_spec n (n / i) i hiprime hv2 (by omega)
          set m := stripFactor n (n / i) i with hmdef
          have hmn : m ≤ n / i := Nat.le_of_dvd hv2 hmdvd
          have hmin2 : ∀ k, k.Prime → k ∣ m → i + 1 ≤ k := by
            intro k hk hkm
            have h1 : i ≤ k :=
              hmin k hk (((hkm.trans hmdvd)).trans ⟨i, (Nat.div_mul_cancel hdvd).symm⟩)
            rcases Nat.lt_or_ge i k with h | h
            · omega
            · have hki : k = i := by omega
              subst hki
              exact absurd hkm hmnot
          obtain ⟨n2, acc2, heq, hn2, hmem⟩ :=
            ih m (i + 1) (acc ++ [i]) (by omega) hm1 (by omega) hmin2
          refine ⟨n2, i :: acc2, ?_, hn2, ?_⟩
          · show (if i * i ≤ n then _ else _) = _
            rw [if_pos hguard, if_pos hmod, ← hmdef, heq]
            simp
          · intro q
            constructor
            · rintro ⟨hq, hqn⟩
              by_cases hqi : q = i
              · exact Or.inl (by simp [hqi])
              · have hqv : q ∣ n / i := by
                  have : q ∣ (n / i) * i := by rw [Nat.div_mul_cancel hdvd]; exact hqn
                  rcases (Nat.Prime.dvd_mul hq).mp this with h | h
                  · exact h
                  · exact absurd ((Nat.prime_dvd_prime_iff_eq hq hiprime).mp h) hqi
                have hqm : q ∣ m := hmkeep q hq hqv hqi
                rcases (hmem q).mp ⟨hq, hqm⟩ with h | h
                · exact Or.inl (by simp [h])
                · exact Or.inr h
            · rintro (h | h)
              · rcases List.mem_cons.mp h with rfl | h2
                · exact ⟨hiprime, hdvd⟩
                · obtain ⟨hq, hqm⟩ := (hmem q).mpr (Or.inl h2)
                  exact ⟨hq, (hqm.trans hmdvd).trans ⟨i, (Nat.div_mul_cancel hdvd).symm⟩⟩
              · obtain ⟨hq, hqm⟩ := (hmem q).mpr (Or.inr h)
                exact ⟨hq, (hqm.trans hmdvd).trans ⟨i, (Nat.div_mul_cancel hdvd).symm⟩⟩
        · have hmin2 : ∀ k, k.Prime → k ∣ n → i + 1 ≤ k := by
            intro k hk hkn
            have h1 : i ≤ k := hmin k hk hkn
            rcases Nat.lt_or_ge i k with h | h
            · omega
            · have hki : k = i := by omega
              subst hki
              exact absurd (Nat.mod_eq_zero_of_dvd hkn) hmod
          obtain ⟨n2, acc2, heq, hn2, hmem⟩ :=
            ih n (i + 1) acc (by omega) hn (by omega) hmin2
          refine ⟨n2, acc2, ?_, hn2, hmem⟩
          show (if i * i ≤ n then _ else _) = _
          rw [if_pos hguard, if_neg hmod, heq]
      · refine ⟨n, [], ?_, hn, ?_⟩
        · show (if i * i ≤ n then _ else _) = _
          rw [if_neg hguard]
          simp
        · have hkey : n = 1 ∨ n.Prime := by
            by_cases h1 : n = 1
            · exact Or.inl h1
            · right
              have hk := Nat.minFac_prime h1
              have hkd : n.minFac ∣ n := Nat.minFac_dvd n
              set k := n.minFac with hkdef
              obtain ⟨w, hw⟩ := hkd
              have hik : i ≤ k := hmin k hk ⟨w, hw⟩
              by_cases hw1 : w = 1
              · rw [hw, hw1, mul_one]; exact hk
              · exfalso
                have hw0 : 1 ≤ w := by
                  rcases Nat.eq_zero_or_pos w with h | h
                  · subst h; simp at hw; omega
                  · exact h
                obtain ⟨k2, hk2, hk2w⟩ := Nat.exists_prime_and_dvd hw1
                have hik2 : i ≤ k2 := hmin k2 hk2 (by rw [hw]; exact Dvd.dvd.mul_left hk2w k)
                have hk2w2 : k2 ≤ w := Nat.le_of_dvd hw0 hk2w
                have : i * i ≤ k * k2 := Nat.mul_le_mul hik hik2
                have : k * k2 ≤ k * w := Nat.mul_le_mul_left k hk2w2
                omega
          intro q
          rcases hkey with h1 | hpr
          · subst h1
            constructor
            · rintro ⟨hq, hd⟩
              exact absurd (Nat.dvd_one.mp hd) hq.ne_one
            · rintro (h | ⟨h, -⟩)
              · simp at h
              · omega
          · constructor
            · rintro ⟨hq, hd⟩
              exact Or.inr ⟨hpr.one_lt, (Nat.prime_dvd_prime_iff_eq hq hpr).mp hd⟩
            · rintro (h | ⟨-, rfl⟩)
              · simp at h
              · exact ⟨hpr, dvd_rfl⟩

/-- Correctness of Poly::PrimeDivisors: for n >= 1 the returned list holds
exactly the prime divisors of n. -/
theorem PrimeDivisors_spec {n : ℕ} (hn : 1 ≤ n) (q : ℕ) :
    q ∈ PrimeDivisors n ↔ q.Prime ∧ q ∣ n := by
  obtain ⟨n2, acc2, heq, hn2, hmem⟩ :=
    primeDivLoop_spec (n + 2) n 2 [] le_rfl hn (by omega)
      (fun k hk _ => hk.two_le)
  have hshow : PrimeDivisors n = if 1 < n2 then acc2 ++ [n2] else acc2 := by
    show (let r := primeDivLoop (n + 2) n 2 []; if 1 < r.1 then r.2 ++ [r.1] else r.2) = _
    rw [heq]
    rfl
  rw [hshow]
  by_cases h2 : 1 < n2
  · rw [if_pos h2]
    constructor
    · intro h
      rcases List.mem_append.mp h with h | h
      · exact (hmem q).mpr (Or.inl h)
      · exact (hmem q).mpr (Or.inr ⟨h2, by simpa using h⟩)
    · intro h
      rcases (hmem q).mp h with h | ⟨-, rfl⟩
      · exact List.mem_append.mpr (Or.inl h)
      · exact List.mem_append.mpr (Or.inr (by simp))
  · rw [if_neg h2]
    constructor
    · intro h
      exact (hmem q).mpr (Or.inl h)
    · intro h
      rcases (hmem q).mp h with h | ⟨h, -⟩
      · exact h
      · omega

/-! ### The field-theoretic core of Rabin's criterion -/

theorem pow_pow_fixed {M : Type} [Monoid M] {x : M} {q : ℕ} (hx : x ^ q = x) :
    ∀ t, x ^ q ^ t = x := by
  intro t
  induction t with
  | zero => simp
  | succ t ih => rw [pow_succ, pow_mul, ih, hx]

theorem pow_ppow_gcd {L : Type} [Monoid L] (P : ℕ) :
    ∀ (e1 e2 : ℕ) (x : L), x ^ P ^ e1 = x → x ^ P ^ e2 = x →
      x ^ P ^ Nat.gcd e1 e2 = x := by
  intro e1
  induction e1 using Nat.strong_induction_on with
  | _ e1 ih =>
      intro e2 x h1 h2
      rcases Nat.eq_zero_or_pos e1 with rfl | hpos
      · simpa [Nat.gcd_zero_left] using h2
      · rw [Nat.gcd_rec]
        refine ih (e2 % e1) (Nat.mod_lt e2 hpos) e1 x ?_ h1
        have hq : x ^ P ^ (e1 * (e2 / e1)) = x := by
          rw [pow_mul]
          exact pow_pow_fixed h1 (e2 / e1)
        calc x ^ P ^ (e2 % e1)
            = (x ^ P ^ (e1 * (e2 / e1))) ^ P ^ (e2 % e1) := by rw [hq]
          _ = x ^ (P ^ (e1 * (e2 / e1)) * P ^ (e2 % e1)) := by rw [← pow_mul]
          _ = x ^ P ^ (e1 * (e2 / e1) + e2 % e1) := by rw [← pow_add]
          _ = x ^ P ^ e2 := by rw [Nat.div_add_mod]
          _ = x := h2

theorem irreducible_dvd_xpow_sub_x {p : ℕ} (hp : p.Prime) {g : Polynomial (ZMod p)}
    (hg : Irreducible g) (m : ℕ) :
    g ∣ Polynomial.X ^ p ^ m - Polynomial.X ↔ g.natDegree ∣ m := by
  haveI hfp : Fact p.Prime := ⟨hp⟩
  haveI hfi : Fact (Irreducible g) := ⟨hg⟩
  have hg0 : g ≠ 0 := hg.ne_zero
  have hd1 : 1 ≤ g.natDegree := by
    by_contra hcon
    push_neg at hcon
    have hdeg0 : g.natDegree = 0 := by omega
    have hdeg : g.degree = 0 := by
      rw [Polynomial.degree_eq_natDegree hg0, hdeg0]
      simp
    exact hg.not_unit (Polynomial.isUnit_iff_degree_eq_zero.mpr hdeg)
  set d := g.natDegree with hd
  haveI : Fintype (AdjoinRoot g) :=
    Fintype.ofEquiv _ (AdjoinRoot.powerBasis hg0).basis.equivFun.toEquiv.symm
  have hcard : Fintype.card (AdjoinRoot g) = p ^ d := by
    rw [Module.card_fintype (AdjoinRoot.powerBasis hg0).basis, ZMod.card]
    rw [Fintype.card_fin, AdjoinRoot.powerBasis_dim]
  set α : AdjoinRoot g := AdjoinRoot.root g with hα
  have hmain : g ∣ Polynomial.X ^ p ^ m - Polynomial.X ↔ α ^ p ^ m = α := by
    have hmk : AdjoinRoot.mk g (Polynomial.X ^ p ^ m - Polynomial.X)
        = α ^ p ^ m - α := by
      rw [map_sub, map_pow, AdjoinRoot.mk_X]
    constructor
    · intro hdvd
      have h2 := AdjoinRoot.mk_eq_zero.mpr hdvd
      rw [hmk] at h2
      exact sub_eq_zero.mp h2
    · intro he
      exact AdjoinRoot.mk_eq_zero.mp (by rw [hmk]; exact sub_eq_zero.mpr he)
  rw [hmain]
  have hαd : α ^ p ^ d = α := by
    have h1 := FiniteField.pow_card α
    rw [hcard] at h1
    exact h1
  constructor
  · intro hαm
    set r := Nat.gcd d m with hr
    have hr1 : 1 ≤ r := by
      rcases Nat.eq_zero_or_pos r with h0 | h
      · exfalso
        have h2 : Nat.gcd d m = 0 := by rw [← hr]; exact h0
        have := (Nat.gcd_eq_zero_iff.mp h2).1
        omega
      · exact h
    have hαr : α ^ p ^ r = α := pow_ppow_gcd p d m α hαd hαm
    haveI : CharP (AdjoinRoot g) p :=
      charP_of_injective_algebraMap (algebraMap (ZMod p) (AdjoinRoot g)).injective p
    have hall : ∀ x : AdjoinRoot g, x ^ p ^ r = x := by
      intro x
      have hx : x ∈ Algebra.adjoin (ZMod p) ({α} : Set (AdjoinRoot g)) := by
        rw [hα, AdjoinRoot.adjoinRoot_eq_top]
        exact Algebra.mem_top
      induction hx using Algebra.adjoin_induction with
      | mem y hy =>
          have : y = α := by simpa using hy
          rw [this]
          exact hαr
      | algebraMap c =>
          rw [← map_pow]
          congr 1
          exact pow_pow_fixed (ZMod.pow_card c) r
      | add y z hy hz ihy ihz => rw [add_pow_char_pow, ihy, ihz]
      | mul y z hy hz ihy ihz => rw [mul_pow, ihy, ihz]
    have hr2 : 1 < p ^ r := by
      calc 1 < p := hp.one_lt
        _ = p ^ 1 := (pow_one p).symm
        _ ≤ p ^ r := Nat.pow_le_pow_right hp.one_lt.le hr1
    set Φ : Polynomial (AdjoinRoot g) := Polynomial.X ^ p ^ r - Polynomial.X with hΦ
    have hΦdeg : Φ.degree = ((p ^ r : ℕ) : WithBot ℕ) := by
      rw [hΦ, Polynomial.degree_sub_eq_left_of_degree_lt]
      · exact Polynomial.degree_X_pow _
      · rw [Polynomial.degree_X_pow, Polynomial.degree_X]
        exact_mod_cast hr2
    have hΦne : Φ ≠ 0 := by
      intro h0
      rw [h0, Polynomial.degree_zero] at hΦdeg
      exact WithBot.bot_ne_coe hΦdeg
    have hΦnat : Φ.natDegree = p ^ r := Polynomial.natDegree_eq_of_degree_eq_some hΦdeg
    have hcardle : Fintype.card (AdjoinRoot g) ≤ p ^ r := by
      have hsub : Finset.univ.val ≤ Φ.roots := by
        apply (Multiset.le_iff_subset Finset.univ.nodup).mpr
        intro a _
        apply (Polynomial.mem_roots hΦne).mpr
        show Φ.IsRoot a
        rw [hΦ]
        show Polynomial.eval a (Polynomial.X ^ p ^ r - Polynomial.X) = 0
        simp [hall a]
      calc Fintype.card (AdjoinRoot g) = Multiset.card Finset.univ.val := rfl
        _ ≤ Multiset.card Φ.roots := Multiset.card_le_card hsub
        _ ≤ Φ.natDegree := Polynomial.card_roots' Φ
        _ = p ^ r := hΦnat
    have hdr : d ≤ r := by
      rw [hcard] at hcardle
      exact (Nat.pow_le_pow_iff_right hp.one_lt).mp hcardle
    have hrd : r ∣ d := Nat.gcd_dvd_left d m
    have hrled : r ≤ d := Nat.le_of_dvd (by omega) hrd
    have hgcdm : r ∣ m := by rw [hr]; exact Nat.gcd_dvd_right d m
    have hrdeq : r = d := by omega
    rw [← hrdeq]
    exact hgcdm
  · intro hdm
    obtain ⟨t, rfl⟩ := hdm
    rw [pow_mul]
    exact pow_pow_fixed hαd t

/-! ### The spec's notion of irreducibility and Rabin's criterion -/

/-- The spec glossary's definition, taken verbatim: a polynomial of degree
>= 1 that cannot be factored into two polynomials of positive degree over
the same field. -/
def SpecIrreducible (p : ℕ) (F : Polynomial (ZMod p)) : Prop :=
  1 ≤ F.degree ∧
  ¬ ∃ g h : Polynomial (ZMod p), 0 < g.degree ∧ 0 < h.degree ∧ F = g * h

theorem degree_pos_of_not_unit {p : ℕ} (hp : p.Prime) {a : Polynomial (ZMod p)}
    (ha0 : a ≠ 0) (hu : ¬IsUnit a) : 0 < a.degree := by
  haveI : Fact p.Prime := ⟨hp⟩
  by_contra hcon
  push_neg at hcon
  have hd0 : a.degree = 0 :=
    le_antisymm hcon (Polynomial.zero_le_degree_iff.mpr ha0)
  exact hu (Polynomial.isUnit_iff_degree_eq_zero.mpr hd0)

theorem specIrreducible_iff_irreducible {p : ℕ} (hp : p.Prime)
    {F : Polynomial (ZMod p)} (hdeg : 1 ≤ F.degree) :
    SpecIrreducible p F ↔ Irreducible F := by
  haveI : Fact p.Prime := ⟨hp⟩
  have hF0 : F ≠ 0 := by
    intro h0
    rw [h0, Polynomial.degree_zero] at hdeg
    simp at hdeg
  constructor
  · rintro ⟨h1, h2⟩
    constructor
    · intro hu
      rw [Polynomial.degree_eq_zero_of_isUnit hu] at h1
      exact absurd h1 (by decide)
    · intro a b hab
      by_contra hcon
      push_neg at hcon
      obtain ⟨hna, hnb⟩ := hcon
      have ha0 : a ≠ 0 := by
        rintro rfl
        rw [zero_mul] at hab
        exact hF0 hab
      have hb0 : b ≠ 0 := by
        rintro rfl
        rw [mul_zero] at hab
        exact hF0 hab
      exact h2 ⟨a, b, degree_pos_of_not_unit hp ha0 hna,
        degree_pos_of_not_unit hp hb0 hnb, hab⟩
  · intro hirr
    refine ⟨hdeg, ?_⟩
    rintro ⟨a, b, ha, hb, hab⟩
    rcases hirr.isUnit_or_isUnit hab with hu | hu
    · rw [Polynomial.degree_eq_zero_of_isUnit hu] at ha
      exact lt_irrefl 0 ha
    · rw [Polynomial.degree_eq_zero_of_isUnit hu] at hb
      exact lt_irrefl 0 hb

/-- Rabin's irreducibility criterion: a degree-n polynomial (n >= 2) over
GF(p) is irreducible iff it divides X^(p^n) - X and shares no irreducible
factor with X^(p^(n/q)) - X for any prime divisor q of n. -/
theorem rabin_characterization {p n : ℕ} (hp : p.Prime) {F : Polynomial (ZMod p)}
    (hn : 2 ≤ n) (hFdeg : F.natDegree = n) (hF0 : F ≠ 0) :
    (F ∣ Polynomial.X ^ p ^ n - Polynomial.X ∧
     ∀ q, q.Prime → q ∣ n →
       ¬ ∃ π : Polynomial (ZMod p), Irreducible π ∧ π ∣ F ∧
         π ∣ Polynomial.X ^ p ^ (n / q) - Polynomial.X) ↔ Irreducible F := by
  haveI : Fact p.Prime := ⟨hp⟩
  constructor
  · rintro ⟨h1, h2⟩
    have hfac : ∀ π : Polynomial (ZMod p), Irreducible π → π ∣ F → π.natDegree = n := by
      intro π hπ hπF
      have hπd : π.natDegree ∣ n := by
        rw [← (irreducible_dvd_xpow_sub_x hp hπ n)]
        exact hπF.trans h1
      rcases eq_or_lt_of_le (Nat.le_of_dvd (by omega) hπd) with he | hlt
      · exact he
      · exfalso
        obtain ⟨q, hq, hqn, hdq⟩ := exists_prime_div_with_dvd hπd hlt (by omega)
        exact h2 q hq hqn ⟨π, hπ, hπF, (irreducible_dvd_xpow_sub_x hp hπ (n / q)).mpr hdq⟩
    have hFnu : ¬IsUnit F := by
      intro hu
      have hdz := Polynomial.degree_eq_zero_of_isUnit hu
      have h3 : F.natDegree = 0 := Polynomial.natDegree_eq_of_degree_eq_some hdz
      omega
    obtain ⟨π, hπ, hdvd⟩ := WfDvdMonoid.exists_irreducible_factor hFnu hF0
    obtain ⟨w, hw⟩ := hdvd
    have hπn : π.natDegree = n := hfac π hπ ⟨w, hw⟩
    have hw0 : w ≠ 0 := by
      rintro rfl
      rw [mul_zero] at hw
      exact hF0 hw
    have hmulnat : F.natDegree = π.natDegree + w.natDegree := by
      rw [hw]
      exact Polynomial.natDegree_mul hπ.ne_zero hw0
    have hwdeg : w.natDegree = 0 := by omega
    have hwu : IsUnit w := by
      apply Polynomial.isUnit_iff_degree_eq_zero.mpr
      rw [Polynomial.degree_eq_natDegree hw0, hwdeg]
      simp
    have hirrmul : Irreducible (π * w) := ((associated_mul_unit_right π w hwu).irreducible hπ)
    rwa [← hw] at hirrmul
  · intro hirr
    refine ⟨?_, ?_⟩
    · rw [irreducible_dvd_xpow_sub_x hp hirr n, hFdeg]
    · rintro q hq hqn ⟨π, hπ, hπF, hπX⟩
      have hassoc : Associated π F := hπ.associated_of_dvd hirr hπF
      have hle1 := Polynomial.natDegree_le_of_dvd hassoc.dvd hF0
      have hle2 := Polynomial.natDegree_le_of_dvd hassoc.symm.dvd hπ.ne_zero
      have hπdeg : π.natDegree = n := by omega
      have hdvdnq : π.natDegree ∣ n / q :=
        (irreducible_dvd_xpow_sub_x hp hπ (n / q)).mp hπX
      rw [hπdeg] at hdvdnq
      have h1 : 1 ≤ n / q := (Nat.one_le_div_iff hq.pos).mpr (Nat.le_of_dvd (by omega) hqn)
      have h2 : n / q < n := Nat.div_lt_self (by omega) hq.one_lt
      have h3 := Nat.le_of_dvd (by omega) hdvdnq
      omega

/-! ### Bridging the code paths of IsIrreducible to the mathematics -/

theorem irreducible_natDegree_pos {p : ℕ} (hp : p.Prime) {g : Polynomial (ZMod p)}
    (hg : Irreducible g) : 1 ≤ g.natDegree := by
  haveI : Fact p.Prime := ⟨hp⟩
  by_contra hcon
  push_neg at hcon
  have hdeg0 : g.natDegree = 0 := by omega
  have hdeg : g.degree = 0 := by
    rw [Polynomial.degree_eq_natDegree hg.ne_zero, hdeg0]
    simp
  exact hg.not_unit (Polynomial.isUnit_iff_degree_eq_zero.mpr hdeg)

/-- The polynomial test = PowX(k, f) - x used by IsIrreducible: it is the
canonical zero exactly when f divides X^k - X, and (for divisors of f)
divisibility of test matches divisibility of X^k - X. -/
theorem test_poly_spec {f : Poly} (hprime : f.p.Prime) (hf : f.WF)
    (hlen3 : 3 ≤ f.a.length) (k : ℕ) :
    ∃ out : Poly, Poly.PowX k f = .ok out ∧
      (Poly.sub out (Poly.ofList [0, 1] f.p)).p = f.p ∧
      (Poly.sub out (Poly.ofList [0, 1] f.p)).WF ∧
      ((Poly.sub out (Poly.ofList [0, 1] f.p)).a = [0] ↔
        toP f.p f.a ∣ Polynomial.X ^ k - Polynomial.X) ∧
      ∀ e : Polynomial (ZMod f.p), e ∣ toP f.p f.a →
        (e ∣ toP f.p (Poly.sub out (Poly.ofList [0, 1] f.p)).a ↔
         e ∣ Polynomial.X ^ k - Polynomial.X) := by
  haveI : Fact f.p.Prime := ⟨hprime⟩
  have hp : 0 < f.p := hprime.pos
  have hp2 : 2 ≤ f.p := hprime.two_le
  have hnz : f.a ≠ [0] := by
    intro h
    rw [h] at hlen3
    simp at hlen3
  obtain ⟨hnatF, hFne⟩ := toP_natDegree_WF hf hnz
  obtain ⟨out, hout, houtp, houtwf, houtlen, hdvd⟩ := PowX_spec hprime hf (by omega) k
  have hX2a : (Poly.ofList [0, 1] f.p).a = [0, 1] := by
    show Normalize f.p [0, 1] = [0, 1]
    apply Normalize_fix
    refine ⟨by simp, ?_, Or.inl (by simp)⟩
    intro x hx
    simp at hx
    rcases hx with rfl | rfl <;> exact ⟨by omega, by omega⟩
  have htp : (Poly.sub out (Poly.ofList [0, 1] f.p)).p = f.p := houtp
  have htwf : (Poly.sub out (Poly.ofList [0, 1] f.p)).WF :=
    sub_WF (by rw [houtp]; exact hp) houtwf.1 (by rw [hX2a]; simp)
  have htwf2 : WFa f.p (Poly.sub out (Poly.ofList [0, 1] f.p)).a := htp ▸ htwf
  have htoPX2 : toP f.p (Poly.ofList [0, 1] f.p).a = Polynomial.X := by
    rw [hX2a, toP_cons, toP_cons, toP_nil]
    simp
  have htoPt : toP f.p (Poly.sub out (Poly.ofList [0, 1] f.p)).a =
      toP f.p out.a - Polynomial.X := by
    have h1 := toP_sub out (Poly.ofList [0, 1] f.p)
    rw [houtp] at h1
    rw [h1, htoPX2]
  have htlen : (Poly.sub out (Poly.ofList [0, 1] f.p)).a.length < f.a.length := by
    have houtpos : 1 ≤ out.a.length := List.length_pos.mpr houtwf.1
    by_cases h0 : (Poly.sub out (Poly.ofList [0, 1] f.p)).a = [0]
    · rw [h0]
      simp
      omega
    · obtain ⟨hnd, hne⟩ := toP_natDegree_WF htwf2 h0
      have houtnat : (toP f.p out.a).natDegree ≤ out.a.length - 1 := by
        by_cases hz : toP f.p out.a = 0
        · rw [hz]
          simp
        · have hlt := toP_degree_lt f.p out.a
          rw [Polynomial.degree_eq_natDegree hz] at hlt
          have h5 : (toP f.p out.a).natDegree < out.a.length := by exact_mod_cast hlt
          omega
      have hsuble : (toP f.p (Poly.sub out (Poly.ofList [0, 1] f.p)).a).natDegree ≤
          max (toP f.p out.a).natDegree 1 := by
        rw [htoPt]
        have h6 := Polynomial.natDegree_sub_le (toP f.p out.a) (Polynomial.X : Polynomial (ZMod f.p))
        rw [Polynomial.natDegree_X] at h6
        exact h6
      have hpos : 1 ≤ (Poly.sub out (Poly.ofList [0, 1] f.p)).a.length :=
        List.length_pos.mpr htwf2.1
      rw [hnd] at hsuble
      rcases le_max_iff.mp hsuble with h7 | h7 <;> omega
  refine ⟨out, hout, htp, htwf, ?_, ?_⟩
  · constructor
    · intro h0
      have hz : toP f.p out.a - Polynomial.X = 0 := by
        rw [← htoPt, h0]
        simp
      have hX : toP f.p out.a = Polynomial.X := by
        rw [← sub_eq_zero]
        exact hz
      rw [hX] at hdvd
      exact hdvd
    · intro hFdvd
      have heq : (Polynomial.X ^ k - Polynomial.X) -
          (Polynomial.X ^ k - toP f.p out.a) = toP f.p out.a - Polynomial.X := by
        ring
      have he : toP f.p f.a ∣ toP f.p (Poly.sub out (Poly.ofList [0, 1] f.p)).a := by
        rw [htoPt, ← heq]
        exact dvd_sub hFdvd hdvd
      by_contra htne
      obtain ⟨hnd, hne⟩ := toP_natDegree_WF htwf2 htne
      have hled := Polynomial.natDegree_le_of_dvd he hne
      have hpos : 1 ≤ (Poly.sub out (Poly.ofList [0, 1] f.p)).a.length :=
        List.length_pos.mpr htwf2.1
      omega
  · intro e heF
    have he2 : e ∣ Polynomial.X ^ k - toP f.p out.a := heF.trans hdvd
    constructor
    · intro ht
      rw [htoPt] at ht
      have heq : (Polynomial.X ^ k - toP f.p out.a) + (toP f.p out.a - Polynomial.X) =
          Polynomial.X ^ k - Polynomial.X := by
        ring
      rw [← heq]
      exact dvd_add he2 ht
    · intro hXk
      rw [htoPt]
      have heq : (Polynomial.X ^ k - Polynomial.X) - (Polynomial.X ^ k - toP f.p out.a) =
          toP f.p out.a - Polynomial.X := by
        ring
      rw [← heq]
      exact dvd_sub hXk he2

/-- The loop over prime divisors: it answers true iff no listed q yields a
common irreducible factor of f and X^(p^(n/q)) - X. -/
theorem irredDivLoop_char {f : Poly} (hprime : f.p.Prime) (hf : f.WF)
    (hlen3 : 3 ≤ f.a.length) (n : ℕ) :
    ∀ qs : List ℕ, (irredDivLoop f f.p n qs = .ok true ↔
      ∀ q ∈ qs, ¬ ∃ π : Polynomial (ZMod f.p), Irreducible π ∧ π ∣ toP f.p f.a ∧
        π ∣ Polynomial.X ^ f.p ^ (n / q) - Polynomial.X) := by
  haveI : Fact f.p.Prime := ⟨hprime⟩
  have hnz : f.a ≠ [0] := by
    intro h
    rw [h] at hlen3
    simp at hlen3
  obtain ⟨hnatF, hFne⟩ := toP_natDegree_WF hf hnz
  intro qs
  induction qs with
  | nil =>
      constructor
      · intro _ q hq
        simp at hq
      · intro _
        rfl
  | cons q qs ih =>
      obtain ⟨xp, hxp, htp, htwf, hzero_iff, hdvd_iff⟩ :=
        test_poly_spec hprime hf hlen3 (PowInt f.p (n / q))
      rw [PowInt_eq] at hzero_iff hdvd_iff
      obtain ⟨G, hG, hGp, hGwf, hGdvdF, hGdvdH, hGgreat⟩ := GCD_spec hprime hf htwf htp
      have hGwf2 : WFa f.p G.a := hGp ▸ hGwf
      have hGne : toP f.p G.a ≠ 0 := by
        intro h0
        rw [h0] at hGdvdF
        exact hFne (zero_dvd_iff.mp hGdvdF)
      have hGnz : G.a ≠ [0] := by
        intro h0
        apply hGne
        rw [h0]
        simp
      obtain ⟨hGnat, -⟩ := toP_natDegree_WF hGwf2 hGnz
      have hGlen1 : 1 ≤ G.a.length := List.length_pos.mpr hGwf2.1
      have hstep : irredDivLoop f f.p n (q :: qs) =
          (if 0 < G.Degree then Except.ok false else irredDivLoop f f.p n qs) := by
        show (do
          let xp2 ← Poly.PowX (PowInt f.p (n / q)) f
          let h := Poly.sub xp2 (Poly.ofList [0, 1] f.p)
          let g ← Poly.GCD f h
          if 0 < g.Degree then Except.ok false else irredDivLoop f f.p n qs :
            Except PolyError Bool) = _
        rw [hxp]
        show (do
          let g ← Poly.GCD f (Poly.sub xp (Poly.ofList [0, 1] f.p))
          if 0 < g.Degree then Except.ok false else irredDivLoop f f.p n qs :
            Except PolyError Bool) = _
        rw [hG]
        rfl
      rw [hstep]
      have hGiff : 0 < G.Degree ↔
          ∃ π : Polynomial (ZMod f.p), Irreducible π ∧ π ∣ toP f.p f.a ∧
            π ∣ Polynomial.X ^ f.p ^ (n / q) - Polynomial.X := by
        constructor
        · intro hG0
          have hGlen2 : 2 ≤ G.a.length := by
            unfold Poly.Degree at hG0
            omega
          have hGnotunit : ¬IsUnit (toP f.p G.a) := by
            intro hu
            have hdz := Polynomial.degree_eq_zero_of_isUnit hu
            have h3 : (toP f.p G.a).natDegree = 0 :=
              Polynomial.natDegree_eq_of_degree_eq_some hdz
            omega
          obtain ⟨π, hπ, hπG⟩ := WfDvdMonoid.exists_irreducible_factor hGnotunit hGne
          exact ⟨π, hπ, hπG.trans hGdvdF,
            (hdvd_iff π (hπG.trans hGdvdF)).mp (hπG.trans hGdvdH)⟩
        · rintro ⟨π, hπ, hπF, hπX⟩
          have hπt : π ∣ toP f.p (Poly.sub xp (Poly.ofList [0, 1] f.p)).a :=
            (hdvd_iff π hπF).mpr hπX
          have hπG : π ∣ toP f.p G.a := hGgreat π hπF hπt
          have hπd := irreducible_natDegree_pos hprime hπ
          have hled := Polynomial.natDegree_le_of_dvd hπG hGne
          unfold Poly.Degree
          omega
      by_cases hG0 : 0 < G.Degree
      · rw [if_pos hG0]
        constructor
        · intro hfalse
          exact absurd hfalse (by simp)
        · intro hall
          exact absurd (hGiff.mp hG0) (hall q (by simp))
      · rw [if_neg hG0]
        rw [ih]
        constructor
        · intro hall q2 hq2
          rcases List.mem_cons.mp hq2 with rfl | h2
          · exact fun hex => hG0 (hGiff.mpr hex)
          · exact hall q2 h2
        · intro hall q2 hq2
          exact hall q2 (List.mem_cons_of_mem q hq2)

/-! ### Claim C1 -/

/-- C1 counterexample: f = x over GF(2) has degree 1 and cannot be written
as a product of two positive-degree polynomials over GF(2), so it is
irreducible in the spec's sense, yet IsIrreducible reports false. -/
theorem claim_C1_counterexample :
    (Poly.ofList [0, 1] 2).WF ∧ Nat.Prime (Poly.ofList [0, 1] 2).p ∧
    SpecIrreducible (Poly.ofList [0, 1] 2).p
      (toP (Poly.ofList [0, 1] 2).p (Poly.ofList [0, 1] 2).a) ∧
    Poly.IsIrreducible (Poly.ofList [0, 1] 2) = .ok false := by
  have ha : (Poly.ofList [0, 1] 2).a = [0, 1] := by decide
  have hX : toP 2 (Poly.ofList [0, 1] 2).a = Polynomial.X := by
    rw [ha, toP_cons, toP_cons, toP_nil]
    simp
  refine ⟨by decide, by decide, ?_, by decide⟩
  show SpecIrreducible 2 (toP 2 (Poly.ofList [0, 1] 2).a)
  rw [hX]
  have hdeg : 1 ≤ (Polynomial.X : Polynomial (ZMod 2)).degree := by
    rw [Polynomial.degree_X]
  exact (specIrreducible_iff_irreducible Nat.prime_two hdeg).mpr Polynomial.irreducible_X

/-- C1 (amended): for every well-formed polynomial f over a prime modulus
with Degree(f) >= 2, IsIrreducible(f) returns true iff f is irreducible
over GF(p) in the spec's sense (degree >= 1 and no factorization into two
polynomials of positive degree). Degree-1 polynomials, though irreducible,
are always rejected by the code, so they must be excluded (see the
counterexample f = x over GF(2)). -/
theorem claim_C1_irreducible_iff_amended (f : Poly) (hprime : f.p.Prime) (hf : f.WF)
    (hdeg : 2 ≤ f.Degree) :
    Poly.IsIrreducible f = .ok true ↔ SpecIrreducible f.p (toP f.p f.a) := by
  haveI : Fact f.p.Prime := ⟨hprime⟩
  have hlen3 : 3 ≤ f.a.length := by
    unfold Poly.Degree at hdeg
    omega
  have hnz : f.a ≠ [0] := by
    intro h
    rw [h] at hlen3
    simp at hlen3
  obtain ⟨hnatF, hFne⟩ := toP_natDegree_WF hf hnz
  have hdegn : ¬ (f.Degree ≤ 0) := by omega
  have hn0 : f.Degree.toNat = f.a.length - 1 := by
    unfold Poly.Degree
    omega
  obtain ⟨out, hPowX, htp, htwf, hzero_iff, hdvd_iff⟩ :=
    test_poly_spec hprime hf hlen3 (PowInt f.p (f.a.length - 1))
  rw [PowInt_eq] at hzero_iff
  have hchar : Poly.IsIrreducible f = .ok true ↔
      (toP f.p f.a ∣ Polynomial.X ^ f.p ^ (f.a.length - 1) - Polynomial.X ∧
       ∀ q, q.Prime → q ∣ (f.a.length - 1) →
         ¬ ∃ π : Polynomial (ZMod f.p), Irreducible π ∧ π ∣ toP f.p f.a ∧
           π ∣ Polynomial.X ^ f.p ^ ((f.a.length - 1) / q) - Polynomial.X) := by
    rw [Poly.IsIrreducible, if_neg hdegn, hn0]
    show ((do
      let xp ← Poly.PowX (PowInt f.p (f.a.length - 1)) f
      let test : Poly := Poly.sub xp (Poly.ofList [0, 1] f.p)
      if ¬(test.a.length = 1 ∧ test.a.headD 0 = 0) then Except.ok false
      else irredDivLoop f f.p (f.a.length - 1) (PrimeDivisors (f.a.length - 1)) :
        Except PolyError Bool) = Except.ok true) ↔ _
    rw [hPowX]
    show ((if ¬((Poly.sub out (Poly.ofList [0, 1] f.p)).a.length = 1 ∧
        (Poly.sub out (Poly.ofList [0, 1] f.p)).a.headD 0 = 0) then Except.ok false
      else irredDivLoop f f.p (f.a.length - 1) (PrimeDivisors (f.a.length - 1))) =
        Except.ok true) ↔ _
    by_cases hz : (Poly.sub out (Poly.ofList [0, 1] f.p)).a = [0]
    · rw [if_neg (not_not.mpr ((zeroRep_iff _).mpr hz))]
      rw [irredDivLoop_char hprime hf hlen3 (f.a.length - 1) (PrimeDivisors (f.a.length - 1))]
      constructor
      · intro hall
        refine ⟨hzero_iff.mp hz, ?_⟩
        intro q hq hqd
        exact hall q ((PrimeDivisors_spec (by omega) q).mpr ⟨hq, hqd⟩)
      · rintro ⟨-, hall⟩
        intro q hqmem
        obtain ⟨hq, hqd⟩ := (PrimeDivisors_spec (by omega) q).mp hqmem
        exact hall q hq hqd
    · rw [if_pos (fun hcon => hz ((zeroRep_iff _).mp hcon))]
      constructor
      · intro hfalse
        exact absurd hfalse (by simp)
      · rintro ⟨hdvd1, -⟩
        exact absurd (hzero_iff.mpr hdvd1) hz
  rw [hchar]
  rw [rabin_characterization hprime (by omega) hnatF hFne]
  have hdegF : 1 ≤ (toP f.p f.a).degree := by
    rw [Polynomial.degree_eq_natDegree hFne, hnatF]
    exact_mod_cast (by omega : 1 ≤ f.a.length - 1)
  exact (specIrreducible_iff_irreducible hprime hdegF).symm

/-- Witness for the amended C1 at f = x^2 + x + 1 over GF(2). -/
theorem claim_C1_irreducible_iff_amended_witness :
    (Poly.ofList [1, 1, 1] 2).WF ∧ Nat.Prime (Poly.ofList [1, 1, 1] 2).p ∧
    2 ≤ (Poly.ofList [1, 1, 1] 2).Degree ∧
    (Poly.IsIrreducible (Poly.ofList [1, 1, 1] 2) = .ok true ↔
      SpecIrreducible (Poly.ofList [1, 1, 1] 2).p
        (toP (Poly.ofList [1, 1, 1] 2).p (Poly.ofList [1, 1, 1] 2).a)) :=
  ⟨by decide, by decide, by decide,
   claim_C1_irreducible_iff_amended (Poly.ofList [1, 1, 1] 2)
     (by decide) (by decide) (by decide)⟩

end Lab2
